import Mathlib

/-!
Verification of the attention layers of `praxis/layers/attentions.py`.

The tensor computations are embedded shallowly: a tensor is a function from
(natural-number) indices to its entries, einsum contractions become finite
sums over `Finset.range`, and the float32/bfloat16 arithmetic of the source
is modelled by exact arithmetic (`ℚ` for the pure mask builders, `ℝ` for the
attention core, whose `exp`/`tanh`/`sqrt` are transcendental).  Batch
indices are carried where the source semantics depends on them (mask
builders); the attention-core einsums (`BTNH,BSNH->BNTS` etc.) act
independently on every batch element, so the core is embedded for one batch
element and theorems quantify over all inputs.
-/

namespace Praxis

/-! ## Large negative mask constant

The mask builders call `py_utils.get_large_negative_number(dtype)`. -/

/-- Modelled from the spec: `py_utils.get_large_negative_number` (the
function lives in `praxis/py_utils.py`, which is not part of the analyzed
sources; the spec describes it as a finite, dtype-appropriate large negative
constant).  For float32 the value is `-0.7 * finfo(float32).max`, with
`finfo(float32).max = 2^128 - 2^104`. -/
def get_large_negative_number : ℚ := -(7 / 10 * (2 ^ 128 - 2 ^ 104))

theorem get_large_negative_number_neg : get_large_negative_number < 0 := by
  norm_num [get_large_negative_number]

/-! ## Mask builders (`attentions.py`, lines 50-178)

All mask builders are pure functions producing additive logit masks; an
entry is `0` where attention is allowed and `get_large_negative_number`
where it is forbidden.  Shapes `[B, 1, 1, T]`, `[1, 1, T, T]`, `[B, 1, T, S]`
are embedded by dropping the broadcast singleton axes. -/

/-- Embedding of `convert_paddings_to_mask` (lines 165-178):
`attention_mask = paddings[:, None, None, :] * large_negative_number`.
Index `b` is the batch index, `t` the key position. -/
def convert_paddings_to_mask (paddings : ℕ → ℕ → ℚ) (b t : ℕ) : ℚ :=
  paddings b t * get_large_negative_number

/-- Embedding of `causal_mask` (lines 87-104): entry at query row `i`, key
column `j` is `(row_idx < col_idx) * large_negative_number`.  The `input_t`
argument of the source only supplies the sequence length and dtype. -/
def causal_mask (i j : ℕ) : ℚ :=
  (if i < j then 1 else 0) * get_large_negative_number

/-- Embedding of `segment_mask` (lines 107-133): entry at `(b, i, j)` is
`(segment_ids[b, i] != source_segment_ids[b, j]) * large_negative_number`,
with `source_segment_ids` defaulting to `segment_ids`. -/
def segment_mask (segment_ids : ℕ → ℕ → ℤ)
    (source_segment_ids : Option (ℕ → ℕ → ℤ)) (b i j : ℕ) : ℚ :=
  (if segment_ids b i ≠ (source_segment_ids.getD segment_ids) b j then 1 else 0)
    * get_large_negative_number

/-- Embedding of `causal_segment_mask` (lines 136-162): the elementwise
minimum of the segment mask and the causal mask, the latter optionally
rescaled columnwise by `causal_attention_mask`. -/
def causal_segment_mask (segment_ids : ℕ → ℕ → ℤ)
    (causal_attention_mask : Option (ℕ → ℕ → ℚ)) (b i j : ℕ) : ℚ :=
  min (segment_mask segment_ids none b i j)
    (match causal_attention_mask with
     | some cam => causal_mask i j * cam b j
     | none => causal_mask i j)

/-- Embedding of `limited_context_mask_from_padding` (lines 50-84).
`t_len` is `paddings.shape[1]`; a context of `none` means unlimited and is
replaced by `t_len` as in the source.  The window mask forbids
`col + left_context <= row` and `row < col - right_context`; the result is
the elementwise minimum of the window mask, the padding mask over keys and
the transposed padding mask over queries. -/
def limited_context_mask_from_padding (t_len : ℕ) (paddings : ℕ → ℕ → ℚ)
    (left_context right_context : Option ℤ) (b i j : ℕ) : ℚ :=
  let lc : ℤ := left_context.getD (t_len : ℤ)
  let rc : ℤ := right_context.getD (t_len : ℤ)
  let window : ℚ :=
    (if (j : ℤ) + lc ≤ (i : ℤ) ∨ (i : ℤ) < (j : ℤ) - rc then 1 else 0)
      * get_large_negative_number
  min (min window (convert_paddings_to_mask paddings b j))
    (convert_paddings_to_mask paddings b i)

/-- C6: for every segment-id tensor, `causal_segment_mask` (the elementwise
minimum of the segment mask and the causal mask) equals the mask computed by
directly disallowing exactly the pairs `(i, j)` where the tokens are in
different segments or `j > i`: entries are `0` on allowed pairs and the
large negative constant on disallowed pairs. -/
theorem causal_segment_mask_eq_direct (segment_ids : ℕ → ℕ → ℤ) (b i j : ℕ) :
    causal_segment_mask segment_ids none b i j =
      if segment_ids b i ≠ segment_ids b j ∨ i < j
      then get_large_negative_number else 0 := by
  have hneg := get_large_negative_number_neg
  simp only [causal_segment_mask, segment_mask, causal_mask, Option.getD_none]
  by_cases hseg : segment_ids b i ≠ segment_ids b j <;>
    by_cases hlt : i < j <;>
      simp [hseg, hlt, min_eq_left, min_eq_right, le_of_lt hneg]

/-- C10: for every binary padding tensor and window configuration,
`limited_context_mask_from_padding` also forbids attention originating from
padded query positions: the output is the elementwise minimum of the window
mask, the padding mask over keys and the transposed padding mask over
queries (an entry is the large negative constant exactly when the window is
violated, the key is padded, or the query is padded, and `0` otherwise),
so every row at a padded query position is entirely the large negative
constant. -/
theorem limited_context_mask_from_padding_blocks_padded_queries
    (t_len : ℕ) (paddings : ℕ → ℕ → ℚ)
    (left_context right_context : Option ℤ)
    (hbin : ∀ b t, paddings b t = 0 ∨ paddings b t = 1) (b i : ℕ) :
    (∀ j,
      limited_context_mask_from_padding t_len paddings left_context
          right_context b i j =
        if ((j : ℤ) + left_context.getD (t_len : ℤ) ≤ (i : ℤ) ∨
              (i : ℤ) < (j : ℤ) - right_context.getD (t_len : ℤ)) ∨
            paddings b j = 1 ∨ paddings b i = 1
        then get_large_negative_number else 0) ∧
    (paddings b i = 1 →
      ∀ j, limited_context_mask_from_padding t_len paddings left_context
          right_context b i j = get_large_negative_number) := by
  have hneg := get_large_negative_number_neg
  have hmain : ∀ j,
      limited_context_mask_from_padding t_len paddings left_context
          right_context b i j =
        if ((j : ℤ) + left_context.getD (t_len : ℤ) ≤ (i : ℤ) ∨
              (i : ℤ) < (j : ℤ) - right_context.getD (t_len : ℤ)) ∨
            paddings b j = 1 ∨ paddings b i = 1
        then get_large_negative_number else 0 := by
    intro j
    simp only [limited_context_mask_from_padding, convert_paddings_to_mask]
    rcases hbin b j with hj | hj <;> rcases hbin b i with hi | hi <;>
      by_cases hw : (j : ℤ) + left_context.getD (t_len : ℤ) ≤ (i : ℤ) ∨
          (i : ℤ) < (j : ℤ) - right_context.getD (t_len : ℤ) <;>
        simp [hj, hi, hw, min_eq_left, min_eq_right, le_of_lt hneg] <;>
          norm_num [hj, hi]
  refine ⟨hmain, fun hpad j => ?_⟩
  rw [hmain j]
  simp [hpad]

/-! ## Decode cache updates (`attentions.py`, lines 1424-1448)

A decode-state tensor of shape `[B, T, N, H]` (or, under lazy prefix
broadcast, `[B, samples..., T, N, H]`) is embedded as a function from the
time index to the slice at that index (the slice type `α` collects the
non-time axes, which `jax.lax.dynamic_update_slice` replaces wholesale
because the written slice spans them fully and all their start indices are
`0`). -/

/-- Start-index clamping performed by `jax.lax.dynamic_update_slice`: the
start index of a slice of extent 1 along an axis of size `size` is clamped
into `[0, size - 1]`. -/
def dynamic_update_slice_index (size : ℕ) (start : ℤ) : ℤ :=
  max 0 (min start ((size : ℤ) - 1))

/-- Embedding of `DotProductAttention.extend_decode_state` (lines 1424-1448):
expands `value` with a singleton time axis and writes it into the cached
state at index `time_step` along the time dimension via
`jax.lax.dynamic_update_slice`, returning the full updated state. -/
def extend_decode_state {α : Type} (size : ℕ) (state : ℕ → α) (value : α)
    (time_step : ℤ) : ℕ → α :=
  fun j => if (j : ℤ) = dynamic_update_slice_index size time_step
           then value else state j

/-- Embedding of `DotProductAttentionWithLPB._broadcast_prefix_length`
(lines 1699-1705): the sum of the time-axis lengths of all frozen prefix
chunks. -/
def broadcast_prefix_length (chunk_lengths : List ℕ) : ℕ :=
  chunk_lengths.sum

/-- Embedding of the cache write performed by
`DotProductAttentionWithLPB.extend_step` (lines 2040-2052): the live-suffix
state of length `suffix_length` is extended at time index
`time_step - _broadcast_prefix_length()`. -/
def lpb_extend_decode_state {α : Type} (suffix_length : ℕ)
    (chunk_lengths : List ℕ) (state : ℕ → α) (value : α)
    (time_step : ℤ) : ℕ → α :=
  extend_decode_state suffix_length state value
    (time_step - (broadcast_prefix_length chunk_lengths : ℤ))

theorem dynamic_update_slice_index_of_lt (size : ℕ) (start : ℤ)
    (h0 : 0 ≤ start) (h1 : start < (size : ℤ)) :
    dynamic_update_slice_index size start = start := by
  unfold dynamic_update_slice_index
  omega

/-- C4: for every cached state, every value slice and every valid
`time_step` (`0 ≤ time_step < size`), `extend_decode_state` writes the value
at exactly index `time_step` along the time dimension, leaves every other
index unchanged, and returns the full updated cache tensor. -/
theorem extend_decode_state_spec {α : Type} (size : ℕ) (state : ℕ → α)
    (value : α) (time_step : ℤ) (h0 : 0 ≤ time_step)
    (h1 : time_step < (size : ℤ)) :
    ∀ j, extend_decode_state size state value time_step j =
      if (j : ℤ) = time_step then value else state j := by
  intro j
  unfold extend_decode_state
  rw [dynamic_update_slice_index_of_lt size time_step h0 h1]

theorem extend_decode_state_spec_witness :
    extend_decode_state 3 (fun _ => (0 : ℚ)) (5 : ℚ) 1 1 = 5 ∧
    extend_decode_state 3 (fun _ => (0 : ℚ)) (5 : ℚ) 1 2 = 0 := by
  have h := extend_decode_state_spec 3 (fun _ => (0 : ℚ)) (5 : ℚ) 1
    (by norm_num) (by norm_num)
  constructor
  · rw [h 1]; norm_num
  · rw [h 2]; norm_num

/-- C3: after one or more `lazy_broadcast_prefix` calls, for every
`time_step` passed to `DotProductAttentionWithLPB.extend_step`, the index at
which the new key/value slice is written into the live-suffix decode state
equals `time_step` minus the sum of the lengths of all frozen prefix chunks
(provided that difference is a valid suffix index): the suffix state is
updated at exactly that index and unchanged elsewhere. -/
theorem lpb_extend_decode_state_write_index {α : Type} (suffix_length : ℕ)
    (chunk_lengths : List ℕ) (state : ℕ → α) (value : α) (time_step : ℤ)
    (h0 : (broadcast_prefix_length chunk_lengths : ℤ) ≤ time_step)
    (h1 : time_step <
      (broadcast_prefix_length chunk_lengths : ℤ) + (suffix_length : ℤ)) :
    ∀ j, lpb_extend_decode_state suffix_length chunk_lengths state value
        time_step j =
      if (j : ℤ) = time_step - (broadcast_prefix_length chunk_lengths : ℤ)
      then value else state j := by
  intro j
  unfold lpb_extend_decode_state extend_decode_state
  rw [dynamic_update_slice_index_of_lt _ _ (by omega) (by omega)]

theorem lpb_extend_decode_state_write_index_witness :
    lpb_extend_decode_state 4 [2, 3] (fun _ => (0 : ℚ)) (7 : ℚ) 6 1 = 7 ∧
    lpb_extend_decode_state 4 [2, 3] (fun _ => (0 : ℚ)) (7 : ℚ) 6 0 = 0 := by
  have h := lpb_extend_decode_state_write_index 4 [2, 3]
    (fun _ => (0 : ℚ)) (7 : ℚ) 6
    (by norm_num [broadcast_prefix_length])
    (by norm_num [broadcast_prefix_length])
  constructor
  · rw [h 1]; norm_num [broadcast_prefix_length]
  · rw [h 0]; norm_num [broadcast_prefix_length]

/-! ## Unsupported-combination failures (C9)

The three explicit `NotImplementedError` paths named by the spec are
embedded as `Except`-valued control-flow skeletons: the error branches are
transcribed literally from the source, and the supported continuation is
abstracted as a function argument (its value is irrelevant to the
error-handling claims). -/

/-- Embedding of the guard of `LocalSelfAttention._dot_atten`
(lines 2401-2404): a non-`None` relative bias raises
`NotImplementedError` before any attention computation; otherwise the local
attention computation `atten` proceeds. -/
def local_self_attention_dot_atten {R A : Type} (relative_bias : Option R)
    (atten : Unit → A) : Except String A :=
  match relative_bias with
  | some _ => .error "relative bias for localattention is not supported yet"
  | none => .ok (atten ())

/-- Embedding of `DotProductAttention.lazy_broadcast_prefix`
(lines 1588-1593): the base layer always raises `NotImplementedError`. -/
def lazy_broadcast_prefix_base (num_suffix_samples suffix_length : ℕ) :
    Except String Unit :=
  .error
    "lazy_broadcast_prefix not implemented, use DotProductAttentionWithLPB instead."

/-- Embedding of the ngrammer guard in
`DotProductAttentionWithLPB.extend_step` (lines 2129-2137): with an
ngrammer configured, a positive broadcast-prefix count raises
`NotImplementedError`; otherwise the ngrammer is applied to the encoded
output. -/
def lpb_extend_step_ngrammer_guard {A : Type} (has_ngrammer : Bool)
    (pfx_count : ℕ) (apply_ngrammer : A → A) (encoded : A) :
    Except String A :=
  if has_ngrammer then
    if 0 < pfx_count then
      .error "ngrammer does not yet support lazy prefix broadcast"
    else .ok (apply_ngrammer encoded)
  else .ok encoded

/-- C9: every unsupported operation combination raises an explicit
not-supported failure rather than falling back to an approximate path:
`LocalSelfAttention` attention with a relative bias errors,
`lazy_broadcast_prefix` on the base `DotProductAttention` errors, and
`extend_step` with an ngrammer under a positive number of lazy broadcast
prefixes errors, for all inputs reaching those paths. -/
theorem unsupported_combinations_error {R A : Type} (rb : R)
    (atten : Unit → A) (num_suffix_samples suffix_length : ℕ)
    (apply_ngrammer : A → A) (encoded : A) (pfx_count : ℕ) :
    local_self_attention_dot_atten (some rb) atten =
      .error "relative bias for localattention is not supported yet" ∧
    lazy_broadcast_prefix_base num_suffix_samples suffix_length =
      .error
        "lazy_broadcast_prefix not implemented, use DotProductAttentionWithLPB instead." ∧
    lpb_extend_step_ngrammer_guard true (pfx_count + 1) apply_ngrammer
        encoded =
      .error "ngrammer does not yet support lazy prefix broadcast" := by
  refine ⟨rfl, rfl, ?_⟩
  simp [lpb_extend_step_ngrammer_guard]

/-! ## Attention core over ℝ

The float32/bfloat16 arithmetic of the attention core is modelled by exact
real arithmetic.  `astype` casts, `checkpoint_name` and the sharding
annotations of the source are identities in this model.  Attention dropout
(`self.atten_dropout`) is the identity outside training and is omitted. -/

noncomputable section

/-- Finite sum of the first `n` values of `f`; einsum contractions of the
source become nestings of this sum. -/
def sumR (n : ℕ) (f : ℕ → ℝ) : ℝ := ∑ i ∈ Finset.range n, f i

/-- Embedding of `DotProductAttention._cap_logits` (lines 1135-1145): the
identity when `atten_logit_cap` is unset or nonpositive, otherwise
`cap * tanh(logits / cap)`. -/
def cap_logits (atten_logit_cap : ℝ) (x : ℝ) : ℝ :=
  if atten_logit_cap ≤ 0 then x
  else atten_logit_cap * Real.tanh (x / atten_logit_cap)

theorem tanh_abs_lt_one (x : ℝ) : |Real.tanh x| < 1 := by
  have hc : 0 < Real.cosh x := Real.cosh_pos x
  have h1 : Real.sinh x < Real.cosh x := by
    have := Real.exp_pos (-x)
    have h := Real.cosh_sub_sinh x
    linarith
  have h2 : -Real.cosh x < Real.sinh x := by
    have := Real.exp_pos x
    have h := Real.cosh_add_sinh x
    linarith
  rw [Real.tanh_eq_sinh_div_cosh, abs_div, abs_of_pos hc, div_lt_one hc,
    abs_lt]
  exact ⟨h2, h1⟩

theorem tanh_strictMono : StrictMono Real.tanh := by
  intro a b hab
  rw [Real.tanh_eq_sinh_div_cosh, Real.tanh_eq_sinh_div_cosh,
    div_lt_div_iff (Real.cosh_pos a) (Real.cosh_pos b)]
  have h : Real.sinh (a - b) < 0 := Real.sinh_neg_iff.2 (by linarith)
  rw [Real.sinh_sub] at h
  linarith

/-- C7 counterexample: the logit-capping function is not idempotent.  At
`cap = 1` and input `1`, re-applying the cap gives `tanh (tanh 1)`, which
differs from `tanh 1` because `tanh` is strictly monotone and `tanh 1 < 1`. -/
theorem cap_logits_not_idempotent :
    cap_logits 1 (cap_logits 1 1) ≠ cap_logits 1 1 := by
  have h1 : cap_logits 1 1 = Real.tanh 1 := by
    simp [cap_logits]
  have h2 : cap_logits 1 (Real.tanh 1) = Real.tanh (Real.tanh 1) := by
    simp [cap_logits]
  rw [h1, h2]
  intro h
  have hinj : Real.tanh 1 = 1 := tanh_strictMono.injective h
  have hlt : |Real.tanh 1| < 1 := tanh_abs_lt_one 1
  rw [hinj] at hlt
  simp at hlt

/-- C7 (amended): when `cap <= 0` (or unset), `_cap_logits` is the identity,
and when `cap > 0` its output is bounded by `|result| <= cap`; however,
re-applying it does change the result in general (`tanh` is not idempotent),
the outputs merely remain within the same bound. -/
theorem cap_logits_noop_and_bounded (cap x : ℝ) :
    (cap ≤ 0 → cap_logits cap x = x) ∧
    (0 < cap → |cap_logits cap x| ≤ cap) := by
  constructor
  · intro h
    simp [cap_logits, h]
  · intro h
    have hn : ¬cap ≤ 0 := not_le.2 h
    rw [cap_logits, if_neg hn, abs_mul, abs_of_pos h]
    have := le_of_lt (tanh_abs_lt_one (x / cap))
    nlinarith [abs_nonneg (Real.tanh (x / cap))]

theorem cap_logits_noop_and_bounded_witness :
    cap_logits (-2 : ℝ) 5 = 5 ∧ |cap_logits (1 : ℝ) 5| ≤ 1 :=
  ⟨(cap_logits_noop_and_bounded (-2) 5).1 (by norm_num),
   (cap_logits_noop_and_bounded 1 5).2 (by norm_num)⟩

/-! ### Hyper-parameters, weights, projections -/

/-- The hyper-parameters of `DotProductAttention` exercised by the embedded
core (lines 905-927).  The sublayer templates `dconv_qkv`,
`use_rotary_position_emb`, `relative_bias_tpl` and `ngrammer_tpl` configure
separate layers; the relative-bias output is passed to the embedded
functions as an explicit optional tensor, and the others are embedded in the
default-off configuration. -/
structure DotProductAttentionHParams where
  input_dim : ℕ
  hidden_dim : ℕ
  num_heads : ℕ
  dim_per_head : ℕ
  use_bias : Bool
  internal_enable_query_scale : Bool
  internal_enable_per_dim_scale : Bool
  atten_logit_cap : ℝ
  attention_extra_logit : Option ℝ

/-- The projection weights of `DotProductAttention.setup` for the
`combine_qkv = False` configuration: `query`, `key`, `value` input
projections, the output projection `post` and the `PerDimScale` variable. -/
structure DotProductAttentionWeights where
  wq : ℕ → ℕ → ℕ → ℝ
  bq : ℕ → ℕ → ℝ
  wk : ℕ → ℕ → ℕ → ℝ
  bk : ℕ → ℕ → ℝ
  wv : ℕ → ℕ → ℕ → ℝ
  bv : ℕ → ℕ → ℝ
  wpost : ℕ → ℕ → ℕ → ℝ
  bpost : ℕ → ℝ
  per_dim_scale : ℕ → ℝ

/-- Embedding of `AttentionProjection.__call__` (lines 646-694) with
`is_output_projection = False`: `einsum('...D,DNH->...NH', x, w)` plus the
bias `b[N, H]` when `use_bias`. -/
def attention_projection (input_dim : ℕ) (w : ℕ → ℕ → ℕ → ℝ)
    (b : ℕ → ℕ → ℝ) (use_bias : Bool) (x : ℕ → ℝ) (n h : ℕ) : ℝ :=
  sumR input_dim (fun d => x d * w d n h) + if use_bias then b n h else 0

/-- Embedding of `AttentionProjection.__call__` with
`is_output_projection = True` and `use_nhd_shape = False`:
`einsum('...NH,DNH->...D', encoded, w)` plus the bias `b[D]`. -/
def post_projection (num_heads dim_per_head : ℕ) (w : ℕ → ℕ → ℕ → ℝ)
    (b : ℕ → ℝ) (use_bias : Bool) (encoded : ℕ → ℕ → ℝ) (d : ℕ) : ℝ :=
  sumR num_heads (fun n => sumR dim_per_head (fun h => encoded n h * w d n h))
    + if use_bias then b d else 0

/-- `jax.nn.softplus`. -/
def softplus (x : ℝ) : ℝ := Real.log (1 + Real.exp x)

/-- Embedding of `PerDimScale.__call__` (lines 378-396): the input is
multiplied elementwise (along the last axis) by
`1.442695041 / sqrt(dim) * softplus(per_dim_scale)`. -/
def per_dim_scale_factor (dim : ℕ) (theta : ℕ → ℝ) (h : ℕ) : ℝ :=
  1.442695041 / Real.sqrt (dim : ℝ) * softplus (theta h)

/-- Embedding of `DotProductAttention._scale_query` (lines 1125-1133) as the
scalar multiplier applied to query component `h`: the `PerDimScale` factor,
the flat factor `(hidden_dim // num_heads) ** -0.5`, or `1` when query
scaling is disabled. -/
def scale_query_factor (p : DotProductAttentionHParams)
    (per_dim_scale : ℕ → ℝ) (h : ℕ) : ℝ :=
  if p.internal_enable_query_scale then
    if p.internal_enable_per_dim_scale then
      per_dim_scale_factor p.dim_per_head per_dim_scale h
    else (Real.sqrt ((p.hidden_dim / p.num_heads : ℕ) : ℝ))⁻¹
  else 1

/-! ### Softmax variants -/

/-- `jax.nn.softmax` along the last axis; the max-subtraction stabilization
inside `jax.nn.softmax` cancels exactly in real arithmetic. -/
def softmax (S : ℕ) (l : ℕ → ℝ) (s : ℕ) : ℝ :=
  Real.exp (l s) / sumR S (fun j => Real.exp (l j))

/-- `jnp.max` of `l` over the first `S` indices (well defined for `S >= 1`). -/
def max_over (S : ℕ) (l : ℕ → ℝ) : ℝ :=
  (Finset.range S).fold max (l 0) l

/-- The `max_logit` of `_log_softmax_with_extra_logit` (lines 1159-1164):
the max over the softmax axis, further maximized with
`attention_extra_logit` when that is set.  (`stop_gradient` is an identity
on values.) -/
def extra_max_logit (extra : Option ℝ) (S : ℕ) (l : ℕ → ℝ) : ℝ :=
  match extra with
  | some e => max (max_over S l) e
  | none => max_over S l

/-- Embedding of `DotProductAttention._log_softmax_with_extra_logit`
(lines 1147-1169): the max logit is subtracted before exponentiation, the
extra logit contributes `exp(extra - max)` to the denominator, and the
result is `logits - log(sum_exp) - max_logit`. -/
def log_softmax_with_extra_logit (extra : Option ℝ) (S : ℕ) (l : ℕ → ℝ)
    (s : ℕ) : ℝ :=
  l s -
    Real.log
      (sumR S (fun j => Real.exp (l j - extra_max_logit extra S l)) +
        match extra with
        | some e => Real.exp (e - extra_max_logit extra S l)
        | none => 0) -
    extra_max_logit extra S l

/-- The attention probabilities computed from padded logits: plain softmax
when `attention_extra_logit` is `None`, otherwise
`exp(_log_softmax_with_extra_logit(...))` (lines 1230-1234, 1295-1299,
1948-1952). -/
def atten_probs (extra : Option ℝ) (S : ℕ) (padded : ℕ → ℝ) (s : ℕ) : ℝ :=
  match extra with
  | none => softmax S padded s
  | some _ => Real.exp (log_softmax_with_extra_logit extra S padded s)

/-! ### Full-sequence attention: `DotProductAttention._dot_atten`
(lines 1176-1241) -/

/-- The biased, capped logits of `_dot_atten` before mask addition: the
query is scaled by `_scale_query`, contracted with the key
(`einsum('BTNH,BSNH->BNTS')`), the relative bias is added when present, and
`_cap_logits` is applied. -/
def dot_atten_prepad (p : DotProductAttentionHParams)
    (per_dim_scale : ℕ → ℝ) (query key : ℕ → ℕ → ℕ → ℝ)
    (relative_bias : Option (ℕ → ℕ → ℕ → ℝ)) (n t s : ℕ) : ℝ :=
  cap_logits p.atten_logit_cap
    (sumR p.dim_per_head
        (fun h => query t n h * scale_query_factor p per_dim_scale h
          * key s n h) +
      match relative_bias with
      | some rb => rb n t s
      | none => 0)

/-- The padded logits of `_dot_atten`: the attention mask is added (in fp32)
after `_cap_logits`. -/
def dot_atten_padded_logits (p : DotProductAttentionHParams)
    (per_dim_scale : ℕ → ℝ) (query key : ℕ → ℕ → ℕ → ℝ)
    (atten_mask : ℕ → ℕ → ℝ)
    (relative_bias : Option (ℕ → ℕ → ℕ → ℝ)) (n t s : ℕ) : ℝ :=
  dot_atten_prepad p per_dim_scale query key relative_bias n t s +
    atten_mask t s

/-- The attention probabilities of `_dot_atten` over key length `S`. -/
def dot_atten_probs (p : DotProductAttentionHParams)
    (per_dim_scale : ℕ → ℝ) (S : ℕ) (query key : ℕ → ℕ → ℕ → ℝ)
    (atten_mask : ℕ → ℕ → ℝ)
    (relative_bias : Option (ℕ → ℕ → ℕ → ℝ)) (n t s : ℕ) : ℝ :=
  atten_probs p.attention_extra_logit S
    (fun j => dot_atten_padded_logits p per_dim_scale query key atten_mask
      relative_bias n t j) s

/-- The encoded output of `_dot_atten`:
`einsum('BNTS,BSNH->BTNH', probs, value)`. -/
def dot_atten_encoded (p : DotProductAttentionHParams)
    (per_dim_scale : ℕ → ℝ) (S : ℕ) (query key value : ℕ → ℕ → ℕ → ℝ)
    (atten_mask : ℕ → ℕ → ℝ)
    (relative_bias : Option (ℕ → ℕ → ℕ → ℝ)) (t n h : ℕ) : ℝ :=
  sumR S (fun s =>
    dot_atten_probs p per_dim_scale S query key atten_mask relative_bias n t s
      * value s n h)

/-! ### Single-step attention: `DotProductAttention._dot_atten_one_step`
(lines 1247-1303).  The query has no time axis, key/value are read from the
decode cache, and the relative bias (shape `[1/B, N, 1, S]`) is squeezed to
`[N, S]`. -/

/-- The biased, capped logits of `_dot_atten_one_step` before mask
addition. -/
def dot_atten_one_step_prepad (p : DotProductAttentionHParams)
    (per_dim_scale : ℕ → ℝ) (query : ℕ → ℕ → ℝ)
    (key_state : ℕ → ℕ → ℕ → ℝ) (relative_bias : Option (ℕ → ℕ → ℝ))
    (n s : ℕ) : ℝ :=
  cap_logits p.atten_logit_cap
    (sumR p.dim_per_head
        (fun h => query n h * scale_query_factor p per_dim_scale h
          * key_state s n h) +
      match relative_bias with
      | some rb => rb n s
      | none => 0)

/-- The padded logits of `_dot_atten_one_step`: the mask (shape
`[1/B, 1, S]`) is added after `_cap_logits`. -/
def dot_atten_one_step_padded_logits (p : DotProductAttentionHParams)
    (per_dim_scale : ℕ → ℝ) (query : ℕ → ℕ → ℝ)
    (key_state : ℕ → ℕ → ℕ → ℝ) (atten_mask : ℕ → ℝ)
    (relative_bias : Option (ℕ → ℕ → ℝ)) (n s : ℕ) : ℝ :=
  dot_atten_one_step_prepad p per_dim_scale query key_state relative_bias n s
    + atten_mask s

/-- The attention probabilities of `_dot_atten_one_step`. -/
def dot_atten_one_step_probs (p : DotProductAttentionHParams)
    (per_dim_scale : ℕ → ℝ) (S : ℕ) (query : ℕ → ℕ → ℝ)
    (key_state : ℕ → ℕ → ℕ → ℝ) (atten_mask : ℕ → ℝ)
    (relative_bias : Option (ℕ → ℕ → ℝ)) (n s : ℕ) : ℝ :=
  atten_probs p.attention_extra_logit S
    (fun j => dot_atten_one_step_padded_logits p per_dim_scale query
      key_state atten_mask relative_bias n j) s

/-- The encoded output of `_dot_atten_one_step`:
`einsum('BNS,BSNH->BNH', probs, value_state)`. -/
def dot_atten_one_step_encoded (p : DotProductAttentionHParams)
    (per_dim_scale : ℕ → ℝ) (S : ℕ) (query : ℕ → ℕ → ℝ)
    (key_state value_state : ℕ → ℕ → ℕ → ℝ) (atten_mask : ℕ → ℝ)
    (relative_bias : Option (ℕ → ℕ → ℝ)) (n h : ℕ) : ℝ :=
  sumR S (fun s =>
    dot_atten_one_step_probs p per_dim_scale S query key_state atten_mask
        relative_bias n s
      * value_state s n h)

/-- C5: in both the full-sequence and the single-step attention paths, a
positive configured logit cap is applied to the logits (with any relative
bias already added) strictly before the attention mask is added: for every
input, the padded logits differ from the mask by at most `cap`, so the
capping never attenuates the mask contribution (in particular a mask entry
below `-(10^30)` leaves the padded logit below `cap - 10^30`). -/
theorem logit_cap_applied_before_mask (p : DotProductAttentionHParams)
    (per_dim_scale : ℕ → ℝ) (query key : ℕ → ℕ → ℕ → ℝ)
    (atten_mask : ℕ → ℕ → ℝ) (relative_bias : Option (ℕ → ℕ → ℕ → ℝ))
    (query1 : ℕ → ℕ → ℝ) (key_state : ℕ → ℕ → ℕ → ℝ)
    (atten_mask1 : ℕ → ℝ) (relative_bias1 : Option (ℕ → ℕ → ℝ))
    (hcap : 0 < p.atten_logit_cap) (n t s : ℕ) :
    (|dot_atten_padded_logits p per_dim_scale query key atten_mask
        relative_bias n t s - atten_mask t s| ≤ p.atten_logit_cap ∧
      (atten_mask t s ≤ -(10 ^ 30) →
        dot_atten_padded_logits p per_dim_scale query key atten_mask
          relative_bias n t s ≤ p.atten_logit_cap - 10 ^ 30)) ∧
    (|dot_atten_one_step_padded_logits p per_dim_scale query1 key_state
        atten_mask1 relative_bias1 n s - atten_mask1 s| ≤ p.atten_logit_cap ∧
      (atten_mask1 s ≤ -(10 ^ 30) →
        dot_atten_one_step_padded_logits p per_dim_scale query1 key_state
          atten_mask1 relative_bias1 n s ≤ p.atten_logit_cap - 10 ^ 30)) := by
  have hfull : |dot_atten_padded_logits p per_dim_scale query key atten_mask
      relative_bias n t s - atten_mask t s| ≤ p.atten_logit_cap := by
    rw [dot_atten_padded_logits, add_sub_cancel_right]
    exact (cap_logits_noop_and_bounded _ _).2 hcap
  have hone : |dot_atten_one_step_padded_logits p per_dim_scale query1
      key_state atten_mask1 relative_bias1 n s - atten_mask1 s| ≤
      p.atten_logit_cap := by
    rw [dot_atten_one_step_padded_logits, add_sub_cancel_right]
    exact (cap_logits_noop_and_bounded _ _).2 hcap
  refine ⟨⟨hfull, fun hm => ?_⟩, ⟨hone, fun hm => ?_⟩⟩
  · have := (abs_le.1 hfull).2
    linarith
  · have := (abs_le.1 hone).2
    linarith

theorem logit_cap_applied_before_mask_witness :
    |dot_atten_padded_logits
        ⟨1, 1, 1, 1, false, false, false, 1, none⟩ (fun _ => 0)
        (fun _ _ _ => 0) (fun _ _ _ => 0) (fun _ _ => -(10 ^ 30)) none 0 0 0
      - (-(10 ^ 30))| ≤ 1 := by
  have h := logit_cap_applied_before_mask
    ⟨1, 1, 1, 1, false, false, false, 1, none⟩ (fun _ => 0)
    (fun _ _ _ => 0) (fun _ _ _ => 0) (fun _ _ => -(10 ^ 30)) none
    (fun _ _ => 0) (fun _ _ _ => 0) (fun _ => 0) none (by norm_num) 0 0 0
  exact h.1.1

/-! ### Finite-sum helper lemmas -/

theorem sumR_nonneg {n : ℕ} {f : ℕ → ℝ} (h : ∀ i, i < n → 0 ≤ f i) :
    0 ≤ sumR n f :=
  Finset.sum_nonneg fun i hi => h i (Finset.mem_range.1 hi)

theorem sumR_split (t S : ℕ) (h : t ≤ S) (f : ℕ → ℝ) :
    sumR S f = sumR t f + ∑ s ∈ Finset.Ico t S, f s := by
  rw [sumR, sumR, Finset.range_eq_Ico]
  exact (Finset.sum_Ico_consecutive _ (Nat.zero_le t) h).symm

theorem single_le_sumR (n : ℕ) (f : ℕ → ℝ) (i : ℕ) (hi : i < n)
    (h : ∀ j, j < n → 0 ≤ f j) : f i ≤ sumR n f :=
  Finset.single_le_sum (fun j hj => h j (Finset.mem_range.1 hj))
    (Finset.mem_range.2 hi)

theorem abs_weighted_sum_le (s : Finset ℕ) (w v : ℕ → ℝ) (V : ℝ)
    (hw : ∀ i ∈ s, 0 ≤ w i) (hv : ∀ i ∈ s, |v i| ≤ V) :
    |∑ i ∈ s, w i * v i| ≤ V * ∑ i ∈ s, w i := by
  calc |∑ i ∈ s, w i * v i| ≤ ∑ i ∈ s, |w i * v i| :=
        Finset.abs_sum_le_sum_abs _ _
    _ ≤ ∑ i ∈ s, w i * V := by
        refine Finset.sum_le_sum fun i hi => ?_
        rw [abs_mul, abs_of_nonneg (hw i hi)]
        exact mul_le_mul_of_nonneg_left (hv i hi) (hw i hi)
    _ = V * ∑ i ∈ s, w i := by
        rw [← Finset.sum_mul, mul_comm]

theorem sum_le_card_mul (s : Finset ℕ) (f : ℕ → ℝ) (c : ℝ)
    (h : ∀ i ∈ s, f i ≤ c) : ∑ i ∈ s, f i ≤ (s.card : ℝ) * c := by
  have := Finset.sum_le_card_nsmul s f c h
  simpa [nsmul_eq_mul] using this

/-! ### Quantitative softmax-tail bound

The central analytic fact behind the incremental-decoding equivalence: in a
softmax-weighted average whose logits beyond position `t` carry a mask value
below `-C`, replacing the values and pre-mask logits beyond `t` (e.g. by
whatever a decode cache holds at not-yet-written positions) moves the result
by at most an explicit bound of order `exp(2M - C)`.  The nonnegative `X`
accounts for the `attention_extra_logit` denominator term, which is common
to both sides. -/

theorem softmax_truncation_bound
    (S t : ℕ) (ht : t < S) (l m v : ℕ → ℝ) (X M V C : ℝ)
    (hX : 0 ≤ X) (hV : 0 ≤ V)
    (hlt : -M ≤ l t) (hmt : m t = 0)
    (hltail : ∀ s, t < s → s < S → l s ≤ M)
    (hmtail : ∀ s, t < s → s < S → m s ≤ -C)
    (hv : ∀ s, s < S → |v s| ≤ V) :
    |sumR S (fun s => Real.exp (l s + m s) * v s) /
        (X + sumR S (fun s => Real.exp (l s + m s))) -
      sumR (t + 1) (fun s => Real.exp (l s + m s) * v s) /
        (X + sumR (t + 1) (fun s => Real.exp (l s + m s)))| ≤
      2 * V * (S : ℝ) * Real.exp (2 * M - C) := by
  have htS : t + 1 ≤ S := ht
  set w : ℕ → ℝ := fun s => Real.exp (l s + m s) with hw
  set A : ℝ := sumR (t + 1) (fun s => w s * v s) with hA
  set B : ℝ := sumR (t + 1) w with hB
  set E : ℝ := ∑ s ∈ Finset.Ico (t + 1) S, w s * v s with hE
  set F : ℝ := ∑ s ∈ Finset.Ico (t + 1) S, w s with hF
  have hwpos : ∀ s, 0 < w s := fun s => Real.exp_pos _
  have hsplit1 : sumR S (fun s => w s * v s) = A + E :=
    sumR_split (t + 1) S htS _
  have hsplit2 : sumR S w = B + F := sumR_split (t + 1) S htS _
  have hBlb : Real.exp (-M) ≤ B := by
    have h1 : Real.exp (-M) ≤ w t := by
      rw [hw]
      simp only [hmt, add_zero]
      exact Real.exp_le_exp.2 hlt
    exact h1.trans (single_le_sumR (t + 1) w t (Nat.lt_succ_self t)
      fun j _ => (hwpos j).le)
  have hBpos : 0 < B := lt_of_lt_of_le (Real.exp_pos _) hBlb
  have hFnn : 0 ≤ F :=
    Finset.sum_nonneg fun i _ => (hwpos i).le
  have hFub : F ≤ (S : ℝ) * Real.exp (M - C) := by
    have hcard : ((Finset.Ico (t + 1) S).card : ℝ) ≤ (S : ℝ) := by
      rw [Nat.card_Ico]
      exact_mod_cast Nat.sub_le S (t + 1)
    calc F ≤ ((Finset.Ico (t + 1) S).card : ℝ) * Real.exp (M - C) := by
          refine sum_le_card_mul _ _ _ fun i hi => ?_
          rcases Finset.mem_Ico.1 hi with ⟨h1, h2⟩
          have := hltail i h1 h2
          have := hmtail i h1 h2
          exact Real.exp_le_exp.2 (by linarith)
      _ ≤ (S : ℝ) * Real.exp (M - C) :=
          mul_le_mul_of_nonneg_right hcard (Real.exp_pos _).le
  have hAub : |A| ≤ V * B := by
    rw [hA, hB, sumR, sumR]
    exact abs_weighted_sum_le _ _ _ V (fun i _ => (hwpos i).le)
      (fun i hi => hv i (lt_of_lt_of_le (Finset.mem_range.1 hi) htS))
  have hEub : |E| ≤ V * F := by
    rw [hE, hF]
    exact abs_weighted_sum_le _ _ _ V (fun i _ => (hwpos i).le)
      (fun i hi => hv i (Finset.mem_Ico.1 hi).2)
  have hD2 : 0 < X + B := by linarith
  have hD1 : 0 < X + (B + F) := by linarith
  rw [hsplit1, hsplit2]
  have hkey : (A + E) / (X + (B + F)) - A / (X + B) =
      (E * (X + B) - A * F) / ((X + (B + F)) * (X + B)) := by
    field_simp
    ring
  rw [hkey, abs_div, abs_of_pos (mul_pos hD1 hD2)]
  have hnum : |E * (X + B) - A * F| ≤ 2 * V * F * (X + B) := by
    have h1 : |E * (X + B) - A * F| ≤ |E| * (X + B) + |A| * F := by
      calc |E * (X + B) - A * F| ≤ |E * (X + B)| + |A * F| :=
            abs_sub _ _
        _ = |E| * (X + B) + |A| * F := by
            rw [abs_mul, abs_mul, abs_of_pos hD2, abs_of_nonneg hFnn]
    have h2 : |E| * (X + B) ≤ V * F * (X + B) :=
      mul_le_mul_of_nonneg_right hEub hD2.le
    have h3 : |A| * F ≤ V * B * F :=
      mul_le_mul_of_nonneg_right hAub hFnn
    have h4 : V * B * F ≤ V * F * (X + B) := by
      have : V * F * B ≤ V * F * (X + B) := by
        refine mul_le_mul_of_nonneg_left (by linarith) ?_
        exact mul_nonneg hV hFnn
      linarith [this]
    linarith
  calc |E * (X + B) - A * F| / ((X + (B + F)) * (X + B)) ≤
        2 * V * F * (X + B) / ((X + (B + F)) * (X + B)) :=
        (div_le_div_right (mul_pos hD1 hD2)).2 hnum
    _ = 2 * V * F / (X + (B + F)) := by
        rw [mul_div_mul_right _ _ (ne_of_gt hD2)]
    _ ≤ 2 * V * F / B := by
        refine div_le_div_of_nonneg_left ?_ hBpos (by linarith)
        have := mul_nonneg (mul_nonneg (by norm_num : (0:ℝ) ≤ 2) hV) hFnn
        linarith [this]
    _ ≤ 2 * V * ((S : ℝ) * Real.exp (M - C)) / Real.exp (-M) := by
        refine div_le_div (by positivity) ?_ (Real.exp_pos _) hBlb
        have h2V : 0 ≤ 2 * V := by linarith
        exact mul_le_mul_of_nonneg_left hFub h2V
    _ = 2 * V * (S : ℝ) * Real.exp (2 * M - C) := by
        have hexp : Real.exp (2 * M - C) * Real.exp (-M) = Real.exp (M - C) := by
          rw [← Real.exp_add]
          ring_nf
        rw [div_eq_iff (ne_of_gt (Real.exp_pos (-M))),
          mul_assoc (2 * V * (S : ℝ)) (Real.exp (2 * M - C)) (Real.exp (-M)),
          hexp]
        ring

/-- Two softmax-weighted averages (over key lengths `T <= S`) that share
their logits, masks and values up to position `t`, attend openly at `t`
(`mask = 0`), and mask every later position below `-C`, differ by at most
`4 V S exp(2M - C)`. -/
theorem softmax_paths_close
    (T S t : ℕ) (ht : t < T) (hTS : T ≤ S)
    (lf mf vf ls ms vs : ℕ → ℝ) (X M V C : ℝ)
    (hX : 0 ≤ X) (hV : 0 ≤ V)
    (heq : ∀ s, s ≤ t → lf s + mf s = ls s + ms s)
    (hveq : ∀ s, s ≤ t → vf s = vs s)
    (hltf : -M ≤ lf t) (hmtf : mf t = 0)
    (hlts : -M ≤ ls t) (hmts : ms t = 0)
    (hltailf : ∀ s, t < s → s < T → lf s ≤ M)
    (hmtailf : ∀ s, t < s → s < T → mf s ≤ -C)
    (hltails : ∀ s, t < s → s < S → ls s ≤ M)
    (hmtails : ∀ s, t < s → s < S → ms s ≤ -C)
    (hvf : ∀ s, s < T → |vf s| ≤ V) (hvs : ∀ s, s < S → |vs s| ≤ V) :
    |sumR T (fun s => Real.exp (lf s + mf s) * vf s) /
        (X + sumR T (fun s => Real.exp (lf s + mf s))) -
      sumR S (fun s => Real.exp (ls s + ms s) * vs s) /
        (X + sumR S (fun s => Real.exp (ls s + ms s)))| ≤
      4 * V * (S : ℝ) * Real.exp (2 * M - C) := by
  have h1 := softmax_truncation_bound T t ht lf mf vf X M V C hX hV
    hltf hmtf hltailf hmtailf hvf
  have h2 := softmax_truncation_bound S t (lt_of_lt_of_le ht hTS) ls ms vs
    X M V C hX hV hlts hmts hltails hmtails hvs
  have htrunc1 : sumR (t + 1) (fun s => Real.exp (lf s + mf s) * vf s) =
      sumR (t + 1) (fun s => Real.exp (ls s + ms s) * vs s) := by
    refine Finset.sum_congr rfl fun s hs => ?_
    have hst : s ≤ t := Nat.lt_succ_iff.1 (Finset.mem_range.1 hs)
    dsimp only
    rw [heq s hst, hveq s hst]
  have htrunc2 : sumR (t + 1) (fun s => Real.exp (lf s + mf s)) =
      sumR (t + 1) (fun s => Real.exp (ls s + ms s)) := by
    refine Finset.sum_congr rfl fun s hs => ?_
    have hst : s ≤ t := Nat.lt_succ_iff.1 (Finset.mem_range.1 hs)
    dsimp only
    rw [heq s hst]
  have htri := abs_sub_le
    (sumR T (fun s => Real.exp (lf s + mf s) * vf s) /
      (X + sumR T (fun s => Real.exp (lf s + mf s))))
    (sumR (t + 1) (fun s => Real.exp (lf s + mf s) * vf s) /
      (X + sumR (t + 1) (fun s => Real.exp (lf s + mf s))))
    (sumR S (fun s => Real.exp (ls s + ms s) * vs s) /
      (X + sumR S (fun s => Real.exp (ls s + ms s))))
  have h2' : |sumR (t + 1) (fun s => Real.exp (lf s + mf s) * vf s) /
      (X + sumR (t + 1) (fun s => Real.exp (lf s + mf s))) -
      sumR S (fun s => Real.exp (ls s + ms s) * vs s) /
        (X + sumR S (fun s => Real.exp (ls s + ms s)))| ≤
      2 * V * (S : ℝ) * Real.exp (2 * M - C) := by
    rw [htrunc1, htrunc2, abs_sub_comm]
    exact h2
  have hTle : 2 * V * (T : ℝ) * Real.exp (2 * M - C) ≤
      2 * V * (S : ℝ) * Real.exp (2 * M - C) := by
    have hTS' : (T : ℝ) ≤ (S : ℝ) := by exact_mod_cast hTS
    have h2V : 0 ≤ 2 * V := by linarith
    have := mul_le_mul_of_nonneg_left hTS' h2V
    exact mul_le_mul_of_nonneg_right (by linarith) (Real.exp_pos _).le
  linarith

/-! ### The probabilities in closed ratio form

Both softmax variants equal `exp(padded_s) / (X + sum_j exp(padded_j))`
where `X = 0` without an extra logit and `X = exp(extra)` with one: the max
subtraction of `_log_softmax_with_extra_logit` cancels exactly in real
arithmetic (for any value of the max), as does the one inside
`jax.nn.softmax`. -/

/-- The constant denominator contribution of `attention_extra_logit`. -/
def extra_term : Option ℝ → ℝ
  | none => 0
  | some e => Real.exp e

theorem extra_term_nonneg (extra : Option ℝ) : 0 ≤ extra_term extra := by
  cases extra with
  | none => exact le_refl 0
  | some e => exact (Real.exp_pos e).le

theorem atten_probs_eq (extra : Option ℝ) (S : ℕ) (padded : ℕ → ℝ) (s : ℕ) :
    atten_probs extra S padded s =
      Real.exp (padded s) /
        (extra_term extra + sumR S (fun j => Real.exp (padded j))) := by
  cases extra with
  | none => simp [atten_probs, softmax, extra_term]
  | some e =>
    simp only [atten_probs, log_softmax_with_extra_logit, extra_term]
    set ml : ℝ := extra_max_logit (some e) S padded with hml
    have hsnn : 0 ≤ sumR S (fun j => Real.exp (padded j - ml)) :=
      sumR_nonneg fun i _ => (Real.exp_pos _).le
    have hpos : 0 < sumR S (fun j => Real.exp (padded j - ml)) +
        Real.exp (e - ml) := by
      have := Real.exp_pos (e - ml)
      linarith
    rw [Real.exp_sub, Real.exp_sub, Real.exp_log hpos, div_div]
    congr 1
    rw [add_mul]
    have hsum : sumR S (fun j => Real.exp (padded j - ml)) * Real.exp ml =
        sumR S (fun j => Real.exp (padded j)) := by
      rw [sumR, sumR, Finset.sum_mul]
      refine Finset.sum_congr rfl fun j _ => ?_
      rw [← Real.exp_add]
      ring_nf
    rw [hsum, ← Real.exp_add, sub_add_cancel, add_comm]

theorem dot_atten_encoded_eq_ratio (p : DotProductAttentionHParams)
    (per_dim_scale : ℕ → ℝ) (S : ℕ) (query key value : ℕ → ℕ → ℕ → ℝ)
    (atten_mask : ℕ → ℕ → ℝ)
    (relative_bias : Option (ℕ → ℕ → ℕ → ℝ)) (t n h : ℕ) :
    dot_atten_encoded p per_dim_scale S query key value atten_mask
        relative_bias t n h =
      sumR S (fun s =>
          Real.exp (dot_atten_padded_logits p per_dim_scale query key
            atten_mask relative_bias n t s) * value s n h) /
        (extra_term p.attention_extra_logit +
          sumR S (fun s =>
            Real.exp (dot_atten_padded_logits p per_dim_scale query key
              atten_mask relative_bias n t s))) := by
  rw [dot_atten_encoded, sumR, sumR, Finset.sum_div]
  refine Finset.sum_congr rfl fun s _ => ?_
  dsimp only
  rw [dot_atten_probs, atten_probs_eq, div_mul_eq_mul_div]

theorem dot_atten_one_step_encoded_eq_ratio (p : DotProductAttentionHParams)
    (per_dim_scale : ℕ → ℝ) (S : ℕ) (query : ℕ → ℕ → ℝ)
    (key_state value_state : ℕ → ℕ → ℕ → ℝ) (atten_mask : ℕ → ℝ)
    (relative_bias : Option (ℕ → ℕ → ℝ)) (n h : ℕ) :
    dot_atten_one_step_encoded p per_dim_scale S query key_state value_state
        atten_mask relative_bias n h =
      sumR S (fun s =>
          Real.exp (dot_atten_one_step_padded_logits p per_dim_scale query
            key_state atten_mask relative_bias n s) * value_state s n h) /
        (extra_term p.attention_extra_logit +
          sumR S (fun s =>
            Real.exp (dot_atten_one_step_padded_logits p per_dim_scale query
              key_state atten_mask relative_bias n s))) := by
  rw [dot_atten_one_step_encoded, sumR, sumR, Finset.sum_div]
  refine Finset.sum_congr rfl fun s _ => ?_
  dsimp only
  rw [dot_atten_one_step_probs, atten_probs_eq, div_mul_eq_mul_div]

/-! ### Magnitude bounds for the embedded computations -/

theorem abs_sumR_le (n : ℕ) (f : ℕ → ℝ) (c : ℝ)
    (h : ∀ i, i < n → |f i| ≤ c) : |sumR n f| ≤ (n : ℝ) * c := by
  calc |sumR n f| ≤ ∑ i ∈ Finset.range n, |f i| :=
        Finset.abs_sum_le_sum_abs _ _
    _ ≤ ((Finset.range n).card : ℝ) * c :=
        sum_le_card_mul _ _ _ fun i hi => h i (Finset.mem_range.1 hi)
    _ = (n : ℝ) * c := by rw [Finset.card_range]

theorem softplus_nonneg (x : ℝ) : 0 ≤ softplus x :=
  Real.log_nonneg (by linarith [Real.exp_pos x])

theorem softplus_le_101 {x : ℝ} (hx : x ≤ 100) : softplus x ≤ 101 := by
  have h100 : (1 : ℝ) ≤ Real.exp 100 := by
    have := Real.add_one_le_exp (100 : ℝ)
    linarith
  have he1 : (2 : ℝ) ≤ Real.exp 1 := by
    have := Real.add_one_le_exp (1 : ℝ)
    linarith
  have h1 : 1 + Real.exp x ≤ Real.exp 101 := by
    have he : Real.exp x ≤ Real.exp 100 := Real.exp_le_exp.2 hx
    have h2 : Real.exp 101 = Real.exp 100 * Real.exp 1 := by
      rw [← Real.exp_add]
      norm_num
    nlinarith [Real.exp_pos (100 : ℝ)]
  calc softplus x = Real.log (1 + Real.exp x) := rfl
    _ ≤ Real.log (Real.exp 101) := by
        refine Real.log_le_log (by positivity) h1
    _ = 101 := Real.log_exp _

theorem scale_query_factor_bounds (p : DotProductAttentionHParams)
    (per_dim_scale : ℕ → ℝ) (h : ℕ)
    (hdiv : p.internal_enable_query_scale = true →
      p.internal_enable_per_dim_scale = false →
      1 ≤ p.hidden_dim / p.num_heads)
    (hpds : |per_dim_scale h| ≤ 100) :
    0 ≤ scale_query_factor p per_dim_scale h ∧
      scale_query_factor p per_dim_scale h ≤ 150 := by
  unfold scale_query_factor
  split_ifs with h1 h2
  · -- PerDimScale path
    have hs0 : 0 ≤ softplus (per_dim_scale h) := softplus_nonneg _
    have hs1 : softplus (per_dim_scale h) ≤ 101 :=
      softplus_le_101 ((abs_le.1 hpds).2)
    unfold per_dim_scale_factor
    rcases Nat.eq_zero_or_pos p.dim_per_head with hz | hpos
    · rw [hz]
      norm_num
    · have h1' : (1 : ℝ) ≤ ((p.dim_per_head : ℕ) : ℝ) := by
        exact_mod_cast hpos
      have hsq : (1 : ℝ) ≤ Real.sqrt ((p.dim_per_head : ℕ) : ℝ) :=
        Real.le_sqrt_of_sq_le (by nlinarith)
      have hd : 1.442695041 / Real.sqrt ((p.dim_per_head : ℕ) : ℝ) ≤
          1.442695041 := by
        rw [div_le_iff (by linarith)]
        nlinarith
      have hd0 : 0 ≤ 1.442695041 / Real.sqrt ((p.dim_per_head : ℕ) : ℝ) := by
        positivity
      refine ⟨mul_nonneg hd0 hs0, ?_⟩
      have hm : 1.442695041 / Real.sqrt ((p.dim_per_head : ℕ) : ℝ) *
          softplus (per_dim_scale h) ≤ 1.442695041 * 101 :=
        mul_le_mul hd hs1 hs0 (by norm_num)
      linarith
  · -- flat-scale path
    have h2' : p.internal_enable_per_dim_scale = false := by
      simpa using h2
    have hnat : 1 ≤ p.hidden_dim / p.num_heads := hdiv h1 h2'
    have h1' : (1 : ℝ) ≤ ((p.hidden_dim / p.num_heads : ℕ) : ℝ) := by
      exact_mod_cast hnat
    have hsq : (1 : ℝ) ≤ Real.sqrt ((p.hidden_dim / p.num_heads : ℕ) : ℝ) :=
      Real.le_sqrt_of_sq_le (by nlinarith)
    have hinv := inv_le_one hsq
    have hinv0 : (0 : ℝ) ≤ (Real.sqrt ((p.hidden_dim / p.num_heads : ℕ) : ℝ))⁻¹ := by
      positivity
    exact ⟨hinv0, by linarith⟩
  · -- scaling disabled
    norm_num

theorem attention_projection_abs_le (input_dim : ℕ) (w : ℕ → ℕ → ℕ → ℝ)
    (b : ℕ → ℕ → ℝ) (use_bias : Bool) (x : ℕ → ℝ)
    (hD : input_dim ≤ 1000)
    (hw : ∀ d n h, |w d n h| ≤ 100) (hb : ∀ n h, |b n h| ≤ 100)
    (hx : ∀ d, |x d| ≤ 100) (n h : ℕ) :
    |attention_projection input_dim w b use_bias x n h| ≤ 10 ^ 8 := by
  unfold attention_projection
  have hsum : |sumR input_dim (fun d => x d * w d n h)| ≤
      (input_dim : ℝ) * (100 * 100) := by
    refine abs_sumR_le _ _ _ fun d _ => ?_
    rw [abs_mul]
    exact mul_le_mul (hx d) (hw d n h) (abs_nonneg _) (by norm_num)
  have hD' : (input_dim : ℝ) ≤ 1000 := by exact_mod_cast hD
  have hbias : |if use_bias then b n h else 0| ≤ 100 := by
    cases use_bias with
    | true => simpa using hb n h
    | false => norm_num
  calc |sumR input_dim (fun d => x d * w d n h) +
        (if use_bias then b n h else 0)| ≤
        |sumR input_dim (fun d => x d * w d n h)| +
          |if use_bias then b n h else 0| := abs_add _ _
    _ ≤ (input_dim : ℝ) * (100 * 100) + 100 := by linarith
    _ ≤ 10 ^ 8 := by nlinarith

theorem capped_logit_abs_le (cap : ℝ) (H : ℕ) (q f k : ℕ → ℝ) (r : ℝ)
    (hcap : cap ≤ 100) (hH : H ≤ 1000)
    (hq : ∀ h, |q h| ≤ 10 ^ 8)
    (hf : ∀ h, 0 ≤ f h ∧ f h ≤ 150)
    (hk : ∀ h, |k h| ≤ 10 ^ 8)
    (hr : |r| ≤ 100) :
    |cap_logits cap (sumR H (fun h => q h * f h * k h) + r)| ≤ 10 ^ 23 := by
  have hterm : ∀ h, (h < H) → |q h * f h * k h| ≤ 10 ^ 8 * 150 * 10 ^ 8 := by
    intro h _
    rw [abs_mul, abs_mul]
    have h1 : |q h| * |f h| ≤ 10 ^ 8 * 150 := by
      refine mul_le_mul (hq h) ?_ (abs_nonneg _) (by norm_num)
      rw [abs_of_nonneg (hf h).1]
      exact (hf h).2
    exact mul_le_mul h1 (hk h) (abs_nonneg _)
      (by norm_num : (0 : ℝ) ≤ 10 ^ 8 * 150)
  have hsum : |sumR H (fun h => q h * f h * k h)| ≤
      (H : ℝ) * (10 ^ 8 * 150 * 10 ^ 8) := abs_sumR_le _ _ _ hterm
  have hH' : (H : ℝ) ≤ 1000 := by exact_mod_cast hH
  have hin : |sumR H (fun h => q h * f h * k h) + r| ≤ 10 ^ 22 := by
    calc |sumR H (fun h => q h * f h * k h) + r| ≤
          |sumR H (fun h => q h * f h * k h)| + |r| := abs_add _ _
      _ ≤ (H : ℝ) * (10 ^ 8 * 150 * 10 ^ 8) + 100 := by linarith
      _ ≤ 10 ^ 22 := by nlinarith
  by_cases hc : cap ≤ 0
  · rw [cap_logits, if_pos hc]
    linarith
  · have hbd := (cap_logits_noop_and_bounded cap
      (sumR H (fun h => q h * f h * k h) + r)).2 (lt_of_not_le hc)
    calc |cap_logits cap (sumR H (fun h => q h * f h * k h) + r)| ≤ cap :=
          hbd
      _ ≤ 100 := hcap
      _ ≤ 10 ^ 23 := by norm_num

theorem post_projection_diff_le (N H : ℕ) (w : ℕ → ℕ → ℕ → ℝ) (b : ℕ → ℝ)
    (use_bias : Bool) (e1 e2 : ℕ → ℕ → ℝ) (d : ℕ) (eps : ℝ)
    (hN : N ≤ 1000) (hH : H ≤ 1000) (hw : ∀ d n h, |w d n h| ≤ 100)
    (heps : 0 ≤ eps) (hdiff : ∀ n h, |e1 n h - e2 n h| ≤ eps) :
    |post_projection N H w b use_bias e1 d -
      post_projection N H w b use_bias e2 d| ≤ 10 ^ 8 * eps := by
  have hdiffsum : post_projection N H w b use_bias e1 d -
      post_projection N H w b use_bias e2 d =
      sumR N (fun n => sumR H (fun h => (e1 n h - e2 n h) * w d n h)) := by
    unfold post_projection
    rw [add_sub_add_right_eq_sub, sumR, sumR, sumR, ← Finset.sum_sub_distrib]
    refine Finset.sum_congr rfl fun n _ => ?_
    dsimp only
    rw [sumR, sumR, sumR, ← Finset.sum_sub_distrib]
    refine Finset.sum_congr rfl fun h _ => ?_
    ring
  rw [hdiffsum]
  have hinner : ∀ n, |sumR H (fun h => (e1 n h - e2 n h) * w d n h)| ≤
      (H : ℝ) * (eps * 100) := by
    intro n
    refine abs_sumR_le _ _ _ fun h _ => ?_
    rw [abs_mul]
    exact mul_le_mul (hdiff n h) (hw d n h) (abs_nonneg _) heps
  have houter : |sumR N
      (fun n => sumR H (fun h => (e1 n h - e2 n h) * w d n h))| ≤
      (N : ℝ) * ((H : ℝ) * (eps * 100)) := by
    refine abs_sumR_le _ _ _ fun n _ => hinner n
  have hN' : (N : ℝ) ≤ 1000 := by exact_mod_cast hN
  have hH' : (H : ℝ) ≤ 1000 := by exact_mod_cast hH
  calc |sumR N (fun n => sumR H (fun h => (e1 n h - e2 n h) * w d n h))| ≤
        (N : ℝ) * ((H : ℝ) * (eps * 100)) := houter
    _ ≤ 10 ^ 8 * eps := by
        have hc : (0 : ℝ) ≤ eps * 100 := by positivity
        have s1 : (H : ℝ) * (eps * 100) ≤ 1000 * (eps * 100) :=
          mul_le_mul_of_nonneg_right hH' hc
        have s2 : (N : ℝ) * ((H : ℝ) * (eps * 100)) ≤
            1000 * (1000 * (eps * 100)) :=
          mul_le_mul hN' s1
            (mul_nonneg (Nat.cast_nonneg H) hc) (by norm_num)
        nlinarith [s2]

theorem real_exp_neg_le_inv (y : ℝ) (hy : 0 < y) : Real.exp (-y) ≤ y⁻¹ := by
  rw [Real.exp_neg]
  have h1 : y ≤ Real.exp y := by linarith [Real.add_one_le_exp y]
  exact inv_le_inv_of_le hy h1

/-! ### End-to-end forward pass and incremental decoding

`DotProductAttention.__call__` (lines 1305-1397) and
`DotProductAttention.extend_step` (lines 1450-1575) are embedded for the
configuration with separate (non-combined) QKV projections and without the
`dconv_qkv` / `use_rotary_position_emb` / `ngrammer_tpl` sublayers; the
relative-bias sublayer output is an explicit optional input.  `__call__` is
taken in the self-attention form used by decoding
(`key_vec = value_vec = query_vec`).  The `einsum` batch axis is handled
independently per batch element and is suppressed. -/

/-- The per-position query projection `self.query(query_vec)`. -/
def query_proj (p : DotProductAttentionHParams)
    (W : DotProductAttentionWeights) (x : ℕ → ℕ → ℝ) (i : ℕ) : ℕ → ℕ → ℝ :=
  attention_projection p.input_dim W.wq W.bq p.use_bias (x i)

/-- The per-position key projection `self.key(key_vec)`. -/
def key_proj (p : DotProductAttentionHParams)
    (W : DotProductAttentionWeights) (x : ℕ → ℕ → ℝ) (i : ℕ) : ℕ → ℕ → ℝ :=
  attention_projection p.input_dim W.wk W.bk p.use_bias (x i)

/-- The per-position value projection `self.value(value_vec)`. -/
def value_proj (p : DotProductAttentionHParams)
    (W : DotProductAttentionWeights) (x : ℕ → ℕ → ℝ) (i : ℕ) : ℕ → ℕ → ℝ :=
  attention_projection p.input_dim W.wv W.bv p.use_bias (x i)

/-- Embedding of `DotProductAttention.__call__` (full-sequence attention) in
self-attention form over a sequence of length `T`: QKV projections, then
`_dot_atten`, then the output projection `self.post`. -/
def attention_fprop (p : DotProductAttentionHParams)
    (W : DotProductAttentionWeights) (T : ℕ) (x : ℕ → ℕ → ℝ)
    (atten_mask : ℕ → ℕ → ℝ) (relative_bias : Option (ℕ → ℕ → ℕ → ℝ))
    (t d : ℕ) : ℝ :=
  post_projection p.num_heads p.dim_per_head W.wpost W.bpost p.use_bias
    (fun n h => dot_atten_encoded p W.per_dim_scale T
      (query_proj p W x) (key_proj p W x) (value_proj p W x)
      atten_mask relative_bias t n h) d

/-- The mutable decoding state: the `key_state` and `value_state` cache
tensors, each indexed by time then head then head-dimension. -/
structure DecodeState where
  key_state : ℕ → ℕ → ℕ → ℝ
  value_state : ℕ → ℕ → ℕ → ℝ

/-- The cache writes of `DotProductAttention.extend_step` (lines 1493-1500):
the new key/value projections of the current step are written into the
decode caches at `time_step` via `extend_decode_state`. -/
def extend_step_update (p : DotProductAttentionHParams)
    (W : DotProductAttentionWeights) (S : ℕ) (st : DecodeState)
    (query_vec : ℕ → ℝ) (time_step : ℤ) : DecodeState where
  key_state := extend_decode_state S st.key_state
    (attention_projection p.input_dim W.wk W.bk p.use_bias query_vec)
    time_step
  value_state := extend_decode_state S st.value_state
    (attention_projection p.input_dim W.wv W.bv p.use_bias query_vec)
    time_step

/-- Embedding of `DotProductAttention.extend_step`: projects the current
query vector, writes key/value into the cache at `time_step`, runs
`_dot_atten_one_step` against the updated cache, and applies the output
projection. -/
def extend_step_output (p : DotProductAttentionHParams)
    (W : DotProductAttentionWeights) (S : ℕ) (st : DecodeState)
    (query_vec : ℕ → ℝ) (time_step : ℤ) (atten_mask : ℕ → ℝ)
    (relative_bias : Option (ℕ → ℕ → ℝ)) (d : ℕ) : ℝ :=
  post_projection p.num_heads p.dim_per_head W.wpost W.bpost p.use_bias
    (fun n h => dot_atten_one_step_encoded p W.per_dim_scale S
      (attention_projection p.input_dim W.wq W.bq p.use_bias query_vec)
      (extend_step_update p W S st query_vec time_step).key_state
      (extend_step_update p W S st query_vec time_step).value_state
      atten_mask relative_bias n h) d

/-- The decode state before step `i` of a sequential `extend_step` run on
inputs `x`, starting from `st0` (whatever the cache held when decoding
began). -/
def decode_states (p : DotProductAttentionHParams)
    (W : DotProductAttentionWeights) (S : ℕ) (x : ℕ → ℕ → ℝ)
    (st0 : DecodeState) : ℕ → DecodeState
  | 0 => st0
  | i + 1 => extend_step_update p W S (decode_states p W S x st0 i) (x i)
      (i : ℤ)

/-- The output of step `i` of a sequential `extend_step` run: `extend_step`
applied to the state accumulated by steps `0 .. i-1`, with the query vector
`x i`, the step mask row and the step relative-bias row for time `i`. -/
def decode_step_output (p : DotProductAttentionHParams)
    (W : DotProductAttentionWeights) (S : ℕ) (x : ℕ → ℕ → ℝ)
    (st0 : DecodeState) (step_mask : ℕ → ℕ → ℝ)
    (step_rb : ℕ → Option (ℕ → ℕ → ℝ)) (i d : ℕ) : ℝ :=
  extend_step_output p W S (decode_states p W S x st0 i) (x i) (i : ℤ)
    (step_mask i) (step_rb i) d

theorem decode_states_closed (p : DotProductAttentionHParams)
    (W : DotProductAttentionWeights) (S : ℕ) (x : ℕ → ℕ → ℝ)
    (st0 : DecodeState) (i : ℕ) (hi : i ≤ S) :
    (∀ j, (decode_states p W S x st0 i).key_state j =
      if j < i then key_proj p W x j else st0.key_state j) ∧
    (∀ j, (decode_states p W S x st0 i).value_state j =
      if j < i then value_proj p W x j else st0.value_state j) := by
  induction i with
  | zero => simp [decode_states]
  | succ i ih =>
    obtain ⟨ihk, ihv⟩ := ih (Nat.le_of_succ_le hi)
    have hidx : dynamic_update_slice_index S (i : ℤ) = (i : ℤ) :=
      dynamic_update_slice_index_of_lt S (i : ℤ) (by positivity)
        (by exact_mod_cast hi)
    constructor
    · intro j
      show extend_decode_state S (decode_states p W S x st0 i).key_state
        (attention_projection p.input_dim W.wk W.bk p.use_bias (x i))
        (i : ℤ) j = _
      rw [extend_decode_state, hidx]
      by_cases hji : (j : ℤ) = (i : ℤ)
      · have hj : j = i := by exact_mod_cast hji
        simp [hji, hj, key_proj]
      · have hj : j ≠ i := fun hc => hji (by exact_mod_cast hc)
        rw [if_neg hji, ihk j]
        have : (j < i + 1) ↔ (j < i) := by omega
        simp [this]
    · intro j
      show extend_decode_state S (decode_states p W S x st0 i).value_state
        (attention_projection p.input_dim W.wv W.bv p.use_bias (x i))
        (i : ℤ) j = _
      rw [extend_decode_state, hidx]
      by_cases hji : (j : ℤ) = (i : ℤ)
      · have hj : j = i := by exact_mod_cast hji
        simp [hji, hj, value_proj]
      · have hj : j ≠ i := fun hc => hji (by exact_mod_cast hc)
        rw [if_neg hji, ihv j]
        have : (j < i + 1) ↔ (j < i) := by omega
        simp [this]

theorem decode_step_state_closed (p : DotProductAttentionHParams)
    (W : DotProductAttentionWeights) (S : ℕ) (x : ℕ → ℕ → ℝ)
    (st0 : DecodeState) (t : ℕ) (ht : t < S) :
    (∀ j, (extend_step_update p W S (decode_states p W S x st0 t) (x t)
        (t : ℤ)).key_state j =
      if j ≤ t then key_proj p W x j else st0.key_state j) ∧
    (∀ j, (extend_step_update p W S (decode_states p W S x st0 t) (x t)
        (t : ℤ)).value_state j =
      if j ≤ t then value_proj p W x j else st0.value_state j) := by
  obtain ⟨hk, hv⟩ := decode_states_closed p W S x st0 t (Nat.le_of_lt ht)
  have hidx : dynamic_update_slice_index S (t : ℤ) = (t : ℤ) :=
    dynamic_update_slice_index_of_lt S (t : ℤ) (by positivity)
      (by exact_mod_cast ht)
  constructor
  · intro j
    show extend_decode_state S (decode_states p W S x st0 t).key_state
      (attention_projection p.input_dim W.wk W.bk p.use_bias (x t))
      (t : ℤ) j = _
    rw [extend_decode_state, hidx]
    by_cases hji : (j : ℤ) = (t : ℤ)
    · have hj : j = t := by exact_mod_cast hji
      simp [hji, hj, key_proj]
    · have hj : j ≠ t := fun hc => hji (by exact_mod_cast hc)
      rw [if_neg hji, hk j]
      have : (j < t) ↔ (j ≤ t) := by omega
      simp [this]
  · intro j
    show extend_decode_state S (decode_states p W S x st0 t).value_state
      (attention_projection p.input_dim W.wv W.bv p.use_bias (x t))
      (t : ℤ) j = _
    rw [extend_decode_state, hidx]
    by_cases hji : (j : ℤ) = (t : ℤ)
    · have hj : j = t := by exact_mod_cast hji
      simp [hji, hj, value_proj]
    · have hj : j ≠ t := fun hc => hji (by exact_mod_cast hc)
      rw [if_neg hji, hv j]
      have : (j < t) ↔ (j ≤ t) := by omega
      simp [this]

/-- C1: for every embedded attention configuration and every input sequence
of length `T`, full-sequence attention (`DotProductAttention.__call__`)
produces, at each position `t < T`, an output within `1e-5` (absolute) of
the output of running `extend_step` sequentially for steps `0 .. T-1` with
matching masks, with keys/values read from and written to the decode cache
(of length `S >= T`, starting from arbitrary bounded initial contents).
The boundedness hypotheses (dimensions up to `1000`, cache length up to
`100000`, weight/input magnitudes up to `100`, stale-cache magnitudes up to
`1e8`, logit cap up to `100`) quantify the floating-tolerance claim; the
masks must agree on row `t`, attend openly at `(t, t)` and carry at most
`-(10^30)` (the large negative mask constant is `-0.7 * float32_max`, far
below that) at the positions after `t` that full attention has not yet
produced and the cache has not yet been written with. -/
theorem dot_product_attention_decode_equiv
    (p : DotProductAttentionHParams) (W : DotProductAttentionWeights)
    (T S : ℕ) (x : ℕ → ℕ → ℝ) (atten_mask : ℕ → ℕ → ℝ)
    (relative_bias : Option (ℕ → ℕ → ℕ → ℝ))
    (st0 : DecodeState) (step_mask : ℕ → ℕ → ℝ)
    (step_rb : ℕ → Option (ℕ → ℕ → ℝ)) (t : ℕ)
    (ht : t < T) (hTS : T ≤ S) (hS : S ≤ 100000)
    (hD : p.input_dim ≤ 1000) (hN : p.num_heads ≤ 1000)
    (hH : p.dim_per_head ≤ 1000) (hcap : p.atten_logit_cap ≤ 100)
    (hdiv : p.internal_enable_query_scale = true →
      p.internal_enable_per_dim_scale = false →
      1 ≤ p.hidden_dim / p.num_heads)
    (hwq : ∀ d n h, |W.wq d n h| ≤ 100) (hbq : ∀ n h, |W.bq n h| ≤ 100)
    (hwk : ∀ d n h, |W.wk d n h| ≤ 100) (hbk : ∀ n h, |W.bk n h| ≤ 100)
    (hwv : ∀ d n h, |W.wv d n h| ≤ 100) (hbv : ∀ n h, |W.bv n h| ≤ 100)
    (hwpost : ∀ d n h, |W.wpost d n h| ≤ 100)
    (hpds : ∀ h, |W.per_dim_scale h| ≤ 100)
    (hx : ∀ i d, |x i d| ≤ 100)
    (hK0 : ∀ s n h, |st0.key_state s n h| ≤ 10 ^ 8)
    (hV0 : ∀ s n h, |st0.value_state s n h| ≤ 10 ^ 8)
    (hrb : ∀ f, relative_bias = some f → ∀ n i s, |f n i s| ≤ 100)
    (hrbstep : ∀ i, step_rb i =
      Option.map (fun f => fun n s => f n i s) relative_bias)
    (hmask_eq : ∀ s, s < T → step_mask t s = atten_mask t s)
    (hself : atten_mask t t = 0)
    (hfut_full : ∀ s, t < s → s < T → atten_mask t s ≤ -(10 ^ 30))
    (hfut_step : ∀ s, t < s → s < S → step_mask t s ≤ -(10 ^ 30)) :
    ∀ d, |attention_fprop p W T x atten_mask relative_bias t d -
      decode_step_output p W S x st0 step_mask step_rb t d| ≤ 1 / 100000 := by
  intro d
  have htS : t < S := lt_of_lt_of_le ht hTS
  simp only [attention_fprop, decode_step_output, extend_step_output]
  set stt : DecodeState :=
    extend_step_update p W S (decode_states p W S x st0 t) (x t) (t : ℤ)
    with hstt
  obtain ⟨hclk, hclv⟩ := decode_step_state_closed p W S x st0 t htS
  rw [← hstt] at hclk hclv
  -- magnitude bounds for projections, scale factors and cache contents
  have hqb : ∀ i n' h', |query_proj p W x i n' h'| ≤ 10 ^ 8 := fun i n' h' =>
    attention_projection_abs_le p.input_dim W.wq W.bq p.use_bias (x i) hD
      hwq hbq (fun d' => hx i d') n' h'
  have hkb : ∀ i n' h', |key_proj p W x i n' h'| ≤ 10 ^ 8 := fun i n' h' =>
    attention_projection_abs_le p.input_dim W.wk W.bk p.use_bias (x i) hD
      hwk hbk (fun d' => hx i d') n' h'
  have hvb : ∀ i n' h', |value_proj p W x i n' h'| ≤ 10 ^ 8 := fun i n' h' =>
    attention_projection_abs_le p.input_dim W.wv W.bv p.use_bias (x i) hD
      hwv hbv (fun d' => hx i d') n' h'
  have hfb : ∀ h', 0 ≤ scale_query_factor p W.per_dim_scale h' ∧
      scale_query_factor p W.per_dim_scale h' ≤ 150 := fun h' =>
    scale_query_factor_bounds p W.per_dim_scale h' hdiv (hpds h')
  have hstK : ∀ s' n' h', |stt.key_state s' n' h'| ≤ 10 ^ 8 := by
    intro s' n' h'
    rw [hclk s']
    split_ifs with hcase
    · exact hkb s' n' h'
    · exact hK0 s' n' h'
  have hstV : ∀ s' n' h', |stt.value_state s' n' h'| ≤ 10 ^ 8 := by
    intro s' n' h'
    rw [hclv s']
    split_ifs with hcase
    · exact hvb s' n' h'
    · exact hV0 s' n' h'
  have hrbF : ∀ n' t' s',
      abs (match relative_bias with
           | some f => f n' t' s'
           | none => (0 : ℝ)) ≤ 100 := by
    intro n' t' s'
    cases hcase : relative_bias with
    | none => norm_num
    | some f => exact hrb f hcase n' t' s'
  have hrbS : ∀ n' s',
      abs (match step_rb t with
           | some g => g n' s'
           | none => (0 : ℝ)) ≤ 100 := by
    intro n' s'
    rw [hrbstep t]
    cases hcase : relative_bias with
    | none => norm_num
    | some f =>
      exact hrb f hcase n' t s'
  -- bounds on the biased, capped pre-mask logits of both paths
  have hlfb : ∀ n' s',
      |dot_atten_prepad p W.per_dim_scale (query_proj p W x)
        (key_proj p W x) relative_bias n' t s'| ≤ 10 ^ 23 := by
    intro n' s'
    exact capped_logit_abs_le p.atten_logit_cap p.dim_per_head
      (fun h' => query_proj p W x t n' h')
      (fun h' => scale_query_factor p W.per_dim_scale h')
      (fun h' => key_proj p W x s' n' h')
      _ hcap hH (fun h' => hqb t n' h') hfb (fun h' => hkb s' n' h')
      (hrbF n' t s')
  have hlsb : ∀ n' s',
      |dot_atten_one_step_prepad p W.per_dim_scale
        (attention_projection p.input_dim W.wq W.bq p.use_bias (x t))
        stt.key_state (step_rb t) n' s'| ≤ 10 ^ 23 := by
    intro n' s'
    exact capped_logit_abs_le p.atten_logit_cap p.dim_per_head
      (fun h' => attention_projection p.input_dim W.wq W.bq p.use_bias
        (x t) n' h')
      (fun h' => scale_query_factor p W.per_dim_scale h')
      (fun h' => stt.key_state s' n' h')
      _ hcap hH (fun h' => hqb t n' h') hfb (fun h' => hstK s' n' h')
      (hrbS n' s')
  -- closeness of the encoded outputs, componentwise over (n, h)
  have hENC : ∀ n h,
      |dot_atten_encoded p W.per_dim_scale T (query_proj p W x)
          (key_proj p W x) (value_proj p W x) atten_mask relative_bias
          t n h -
        dot_atten_one_step_encoded p W.per_dim_scale S
          (attention_projection p.input_dim W.wq W.bq p.use_bias (x t))
          stt.key_state stt.value_state (step_mask t) (step_rb t) n h| ≤
      4 * 10 ^ 8 * (S : ℝ) * Real.exp (2 * 10 ^ 23 - 10 ^ 30) := by
    intro n h
    rw [dot_atten_encoded_eq_ratio, dot_atten_one_step_encoded_eq_ratio]
    simp only [dot_atten_padded_logits, dot_atten_one_step_padded_logits]
    refine softmax_paths_close T S t ht hTS
      (fun s => dot_atten_prepad p W.per_dim_scale (query_proj p W x)
        (key_proj p W x) relative_bias n t s)
      (fun s => atten_mask t s)
      (fun s => value_proj p W x s n h)
      (fun s => dot_atten_one_step_prepad p W.per_dim_scale
        (attention_projection p.input_dim W.wq W.bq p.use_bias (x t))
        stt.key_state (step_rb t) n s)
      (fun s => step_mask t s)
      (fun s => stt.value_state s n h)
      (extra_term p.attention_extra_logit) (10 ^ 23) (10 ^ 8) (10 ^ 30)
      (extra_term_nonneg _) (by norm_num) ?_ ?_ ?_ ?_ ?_ ?_ ?_ ?_ ?_ ?_ ?_ ?_
    · -- logits plus masks coincide on positions up to t
      intro s hs
      have hsT : s < T := lt_of_le_of_lt hs ht
      have hmask : step_mask t s = atten_mask t s := hmask_eq s hsT
      have hkeys : stt.key_state s = key_proj p W x s := by
        rw [hclk s, if_pos hs]
      have hlf : dot_atten_prepad p W.per_dim_scale (query_proj p W x)
          (key_proj p W x) relative_bias n t s =
          dot_atten_one_step_prepad p W.per_dim_scale
            (attention_projection p.input_dim W.wq W.bq p.use_bias (x t))
            stt.key_state (step_rb t) n s := by
        simp only [dot_atten_prepad, dot_atten_one_step_prepad, query_proj,
          hkeys, hrbstep t]
        cases relative_bias with
        | none => simp
        | some f => simp
      dsimp only
      rw [hlf, hmask]
    · -- values coincide on positions up to t
      intro s hs
      dsimp only
      rw [hclv s, if_pos hs]
    · exact (abs_le.1 (hlfb n t)).1
    · exact hself
    · exact (abs_le.1 (hlsb n t)).1
    · show step_mask t t = 0
      rw [hmask_eq t ht]
      exact hself
    · intro s hts hsT
      exact (abs_le.1 (hlfb n s)).2
    · intro s hts hsT
      exact hfut_full s hts hsT
    · intro s hts hsS
      exact (abs_le.1 (hlsb n s)).2
    · intro s hts hsS
      exact hfut_step s hts hsS
    · intro s _
      exact hvb s n h
    · intro s _
      exact hstV s n h
  -- lift through the output projection and finish numerically
  have heps0 : (0 : ℝ) ≤
      4 * 10 ^ 8 * (S : ℝ) * Real.exp (2 * 10 ^ 23 - 10 ^ 30) := by
    positivity
  have hpost := post_projection_diff_le p.num_heads p.dim_per_head W.wpost
    W.bpost p.use_bias
    (fun n h => dot_atten_encoded p W.per_dim_scale T (query_proj p W x)
      (key_proj p W x) (value_proj p W x) atten_mask relative_bias t n h)
    (fun n h => dot_atten_one_step_encoded p W.per_dim_scale S
      (attention_projection p.input_dim W.wq W.bq p.use_bias (x t))
      stt.key_state stt.value_state (step_mask t) (step_rb t) n h)
    d _ hN hH hwpost heps0 hENC
  refine hpost.trans ?_
  -- 10^8 * (4 * 10^8 * S * exp(2*10^23 - 10^30)) <= 1/100000
  have hS' : (S : ℝ) ≤ 100000 := by exact_mod_cast hS
  have hexp : Real.exp (2 * 10 ^ 23 - 10 ^ 30) ≤
      ((10 : ℝ) ^ 30 - 2 * 10 ^ 23)⁻¹ := by
    have harg : 2 * (10 : ℝ) ^ 23 - 10 ^ 30 = -((10 : ℝ) ^ 30 - 2 * 10 ^ 23) := by
      ring
    rw [harg]
    exact real_exp_neg_le_inv _ (by norm_num)
  have h1 : 4 * 10 ^ 8 * (S : ℝ) * Real.exp (2 * 10 ^ 23 - 10 ^ 30) ≤
      4 * 10 ^ 8 * 100000 * ((10 : ℝ) ^ 30 - 2 * 10 ^ 23)⁻¹ := by
    have hSa : 4 * 10 ^ 8 * (S : ℝ) ≤ 4 * 10 ^ 8 * 100000 := by
      nlinarith [hS']
    exact mul_le_mul hSa hexp (Real.exp_pos _).le (by norm_num)
  have h2 : (10 : ℝ) ^ 8 *
      (4 * 10 ^ 8 * (S : ℝ) * Real.exp (2 * 10 ^ 23 - 10 ^ 30)) ≤
      (10 : ℝ) ^ 8 * (4 * 10 ^ 8 * 100000 *
        ((10 : ℝ) ^ 30 - 2 * 10 ^ 23)⁻¹) :=
    mul_le_mul_of_nonneg_left h1 (by norm_num)
  refine h2.trans ?_
  rw [show (10 : ℝ) ^ 8 * (4 * 10 ^ 8 * 100000 *
      ((10 : ℝ) ^ 30 - 2 * 10 ^ 23)⁻¹) =
      (4 * 10 ^ 21) / ((10 : ℝ) ^ 30 - 2 * 10 ^ 23) by
    rw [div_eq_mul_inv]
    ring]
  rw [div_le_iff (by norm_num : (0 : ℝ) < 10 ^ 30 - 2 * 10 ^ 23)]
  norm_num

theorem dot_product_attention_decode_equiv_witness :
    |attention_fprop ⟨1, 1, 1, 1, false, false, false, 0, none⟩
        ⟨fun _ _ _ => 0, fun _ _ => 0, fun _ _ _ => 0, fun _ _ => 0,
          fun _ _ _ => 0, fun _ _ => 0, fun _ _ _ => 0, fun _ => 0,
          fun _ => 0⟩
        1 (fun _ _ => 0) (fun _ _ => 0) none 0 0 -
      decode_step_output ⟨1, 1, 1, 1, false, false, false, 0, none⟩
        ⟨fun _ _ _ => 0, fun _ _ => 0, fun _ _ _ => 0, fun _ _ => 0,
          fun _ _ _ => 0, fun _ _ => 0, fun _ _ _ => 0, fun _ => 0,
          fun _ => 0⟩
        1 (fun _ _ => 0) ⟨fun _ _ _ => 0, fun _ _ _ => 0⟩
        (fun _ _ => 0) (fun _ => none) 0 0| ≤ 1 / 100000 := by
  refine dot_product_attention_decode_equiv
    ⟨1, 1, 1, 1, false, false, false, 0, none⟩
    ⟨fun _ _ _ => 0, fun _ _ => 0, fun _ _ _ => 0, fun _ _ => 0,
      fun _ _ _ => 0, fun _ _ => 0, fun _ _ _ => 0, fun _ => 0, fun _ => 0⟩
    1 1 (fun _ _ => 0) (fun _ _ => 0) none
    ⟨fun _ _ _ => 0, fun _ _ _ => 0⟩ (fun _ _ => 0) (fun _ => none) 0
    (by norm_num) (by norm_num) (by norm_num) (by norm_num) (by norm_num)
    (by norm_num) (by norm_num)
    (by intro h1 h2; exact absurd h1 (by norm_num))
    (fun _ _ _ => by norm_num) (fun _ _ => by norm_num)
    (fun _ _ _ => by norm_num) (fun _ _ => by norm_num)
    (fun _ _ _ => by norm_num) (fun _ _ => by norm_num)
    (fun _ _ _ => by norm_num) (fun _ => by norm_num)
    (fun _ _ => by norm_num)
    (fun _ _ _ => by norm_num) (fun _ _ _ => by norm_num)
    (fun f hf => by cases hf)
    (fun i => rfl)
    (fun s _ => rfl) rfl
    (fun s h1 h2 => by omega)
    (fun s h1 h2 => by omega)
    0

/-! ### Lazy prefix broadcast (`DotProductAttentionWithLPB`, lines 1615-2145)

After one `lazy_broadcast_prefix(K, suffix_length)` call the decoding state
of a sample consists of one frozen prefix chunk (shared by all `K` samples)
plus a live per-sample suffix.  `_dot_atten_one_step` (lines 1845-1965)
computes, per chunk, exactly the padded-logit computation of the base
`_dot_atten_one_step` (`_pre_softmax`), concatenates the chunks along the
key axis, applies one shared softmax, and sums the per-chunk value
contractions (`_post_softmax` with `sum` as combiner).  The embedding below
fixes one sample and one prefix chunk; the `nn.vmap` plumbing applies the
same per-sample function at every sample index.  Slicing a full-key-axis
tensor for chunk 0 starts at offset 0 and is the identity on the first `P`
entries; for the live suffix it starts at offset `P`. -/

/-- Concatenation of two chunks along the key/time axis
(`jnp.concatenate`): the first `P` entries come from `f`, the rest from
`g`. -/
def concat_along {α : Type} (P : ℕ) (f g : ℕ → α) (s : ℕ) : α :=
  if s < P then f s else g (s - P)

/-- `_slice_decode_chunk` applied to a squeezed relative bias: the slice of
length `L` starting at time offset `off` along the key axis. -/
def slice_rb (off : ℕ) (rb : Option (ℕ → ℕ → ℝ)) : Option (ℕ → ℕ → ℝ) :=
  Option.map (fun f => fun n s => f n (off + s)) rb

/-- Embedding of `DotProductAttentionWithLPB._dot_atten_one_step` for one
frozen prefix chunk of length `P` and a live suffix of length `L`, at one
sample: per-chunk padded logits (each chunk computed by the `_pre_softmax`
body, which coincides with the base one-step padded-logit computation, on
the mask/bias slices of that chunk), concatenated along the key axis; one
shared softmax over the concatenation; per-chunk value contractions summed.
Chunk 0 slices start at offset 0, so its mask and bias slices are the
unshifted inputs. -/
def lpb_dot_atten_one_step_encoded (p : DotProductAttentionHParams)
    (per_dim_scale : ℕ → ℝ) (P L : ℕ) (query : ℕ → ℕ → ℝ)
    (prefix_key prefix_value : ℕ → ℕ → ℕ → ℝ)
    (suffix_key suffix_value : ℕ → ℕ → ℕ → ℝ) (atten_mask : ℕ → ℝ)
    (relative_bias : Option (ℕ → ℕ → ℝ)) (n h : ℕ) : ℝ :=
  sumR P (fun s =>
      atten_probs p.attention_extra_logit (P + L)
        (concat_along P
          (fun s' => dot_atten_one_step_padded_logits p per_dim_scale query
            prefix_key atten_mask relative_bias n s')
          (fun s' => dot_atten_one_step_padded_logits p per_dim_scale query
            suffix_key (fun j => atten_mask (P + j)) (slice_rb P relative_bias)
            n s')) s
        * prefix_value s n h) +
  sumR L (fun s =>
      atten_probs p.attention_extra_logit (P + L)
        (concat_along P
          (fun s' => dot_atten_one_step_padded_logits p per_dim_scale query
            prefix_key atten_mask relative_bias n s')
          (fun s' => dot_atten_one_step_padded_logits p per_dim_scale query
            suffix_key (fun j => atten_mask (P + j)) (slice_rb P relative_bias)
            n s')) (P + s)
        * suffix_value s n h)

/-- Embedding of `DotProductAttentionWithLPB.extend_step` at one sample,
after one `lazy_broadcast_prefix` call: projects the query vector, writes
the new key/value into the live suffix at index
`time_step - _broadcast_prefix_length()`, runs the chunked
`_dot_atten_one_step`, and applies the output projection. -/
def lpb_extend_step_output_single (p : DotProductAttentionHParams)
    (W : DotProductAttentionWeights) (P L : ℕ)
    (prefix_key prefix_value : ℕ → ℕ → ℕ → ℝ) (st : DecodeState)
    (query_vec : ℕ → ℝ) (time_step : ℤ) (atten_mask : ℕ → ℝ)
    (relative_bias : Option (ℕ → ℕ → ℝ)) (d : ℕ) : ℝ :=
  post_projection p.num_heads p.dim_per_head W.wpost W.bpost p.use_bias
    (fun n h => lpb_dot_atten_one_step_encoded p W.per_dim_scale P L
      (attention_projection p.input_dim W.wq W.bq p.use_bias query_vec)
      prefix_key prefix_value
      (lpb_extend_decode_state L [P] st.key_state
        (attention_projection p.input_dim W.wk W.bk p.use_bias query_vec)
        time_step)
      (lpb_extend_decode_state L [P] st.value_state
        (attention_projection p.input_dim W.wv W.bv p.use_bias query_vec)
        time_step)
      atten_mask relative_bias n h) d

theorem concat_extend_comm {α : Type} (P L : ℕ) (f g : ℕ → α) (v : α)
    (ts : ℤ) (hP : (P : ℤ) ≤ ts) (hPL : ts < (P : ℤ) + (L : ℤ)) :
    ∀ j, concat_along P f (lpb_extend_decode_state L [P] g v ts) j =
      extend_decode_state (P + L) (concat_along P f g) v ts j := by
  intro j
  have hsum : (broadcast_prefix_length [P] : ℤ) = (P : ℤ) := by
    simp [broadcast_prefix_length]
  unfold lpb_extend_decode_state extend_decode_state
  rw [hsum]
  rw [dynamic_update_slice_index_of_lt L (ts - (P : ℤ)) (by omega)
    (by omega)]
  rw [dynamic_update_slice_index_of_lt (P + L) ts (by omega)
    (by push_cast; omega)]
  unfold concat_along
  by_cases hj : j < P
  · have hne : ¬((j : ℤ) = ts) := by omega
    rw [if_pos hj, if_neg hne, if_pos hj]
  · have hcast : ((j - P : ℕ) : ℤ) = (j : ℤ) - (P : ℤ) := by
      push_cast
      omega
    rw [if_neg hj, if_neg hj]
    dsimp only
    by_cases hts : (j : ℤ) = ts
    · rw [if_pos (show ((j - P : ℕ) : ℤ) = ts - (P : ℤ) by omega),
        if_pos hts]
    · rw [if_neg (show ¬((j - P : ℕ) : ℤ) = ts - (P : ℤ) by omega),
        if_neg hts]

/-- C2: for every shared prefix (of length `P`) and suffix cache (of length
`L`), one decoding step through `DotProductAttentionWithLPB` after
`lazy_broadcast_prefix` produces, for each sample, output exactly equal to
the output of the base `DotProductAttention.extend_step` on that sample
decoded independently without lazy broadcast — i.e. on the concatenated
prefix-plus-suffix key/value caches — for identical logical inputs
(identical query vector, mask and bias), whenever `time_step` addresses the
live suffix (`P <= time_step < P + L`).  Exact equality of the reals
implies the claimed numerical closeness for any positive tolerance. -/
theorem lpb_extend_step_equiv (p : DotProductAttentionHParams)
    (W : DotProductAttentionWeights) (P L : ℕ)
    (prefix_key prefix_value : ℕ → ℕ → ℕ → ℝ) (st : DecodeState)
    (query_vec : ℕ → ℝ) (time_step : ℤ) (atten_mask : ℕ → ℝ)
    (relative_bias : Option (ℕ → ℕ → ℝ))
    (hP : (P : ℤ) ≤ time_step) (hPL : time_step < (P : ℤ) + (L : ℤ)) :
    ∀ d, lpb_extend_step_output_single p W P L prefix_key prefix_value st
        query_vec time_step atten_mask relative_bias d =
      extend_step_output p W (P + L)
        ⟨concat_along P prefix_key st.key_state,
          concat_along P prefix_value st.value_state⟩
        query_vec time_step atten_mask relative_bias d := by
  intro d
  simp only [lpb_extend_step_output_single, extend_step_output,
    extend_step_update]
  congr 1
  funext n h
  set q : ℕ → ℕ → ℝ :=
    attention_projection p.input_dim W.wq W.bq p.use_bias query_vec
  set kp : ℕ → ℕ → ℝ :=
    attention_projection p.input_dim W.wk W.bk p.use_bias query_vec
  set vp : ℕ → ℕ → ℝ :=
    attention_projection p.input_dim W.wv W.bv p.use_bias query_vec
  have hkcomm := concat_extend_comm P L prefix_key st.key_state kp
    time_step hP hPL
  have hvcomm := concat_extend_comm P L prefix_value st.value_state vp
    time_step hP hPL
  -- the concatenated per-chunk padded logits equal the base padded logits
  -- on the concatenated updated cache, for indices below P + L
  have hpad : ∀ s, s < P + L →
      concat_along P
        (fun s' => dot_atten_one_step_padded_logits p W.per_dim_scale q
          prefix_key atten_mask relative_bias n s')
        (fun s' => dot_atten_one_step_padded_logits p W.per_dim_scale q
          (lpb_extend_decode_state L [P] st.key_state kp time_step)
          (fun j => atten_mask (P + j)) (slice_rb P relative_bias) n s') s =
      dot_atten_one_step_padded_logits p W.per_dim_scale q
        (extend_decode_state (P + L) (concat_along P prefix_key st.key_state)
          kp time_step)
        atten_mask relative_bias n s := by
    intro s hsPL
    by_cases hs : s < P
    · rw [concat_along, if_pos hs]
      have hkey : (extend_decode_state (P + L)
          (concat_along P prefix_key st.key_state) kp time_step) s =
          prefix_key s := by
        rw [← hkcomm s, concat_along, if_pos hs]
      simp only [dot_atten_one_step_padded_logits, dot_atten_one_step_prepad,
        hkey]
    · rw [concat_along, if_neg hs]
      have hsP : P ≤ s := Nat.le_of_not_lt hs
      have hPs : P + (s - P) = s := by omega
      have hkey : (extend_decode_state (P + L)
          (concat_along P prefix_key st.key_state) kp time_step) s =
          (lpb_extend_decode_state L [P] st.key_state kp time_step)
            (s - P) := by
        rw [← hkcomm s, concat_along, if_neg hs]
      cases relative_bias with
      | none =>
        simp only [dot_atten_one_step_padded_logits,
          dot_atten_one_step_prepad, slice_rb, Option.map, hkey, hPs]
      | some f =>
        simp only [dot_atten_one_step_padded_logits,
          dot_atten_one_step_prepad, slice_rb, Option.map, hkey, hPs]
  -- probabilities agree below P + L (single shared softmax on both sides)
  have hprobs : ∀ s, s < P + L →
      atten_probs p.attention_extra_logit (P + L)
        (concat_along P
          (fun s' => dot_atten_one_step_padded_logits p W.per_dim_scale q
            prefix_key atten_mask relative_bias n s')
          (fun s' => dot_atten_one_step_padded_logits p W.per_dim_scale q
            (lpb_extend_decode_state L [P] st.key_state kp time_step)
            (fun j => atten_mask (P + j)) (slice_rb P relative_bias) n s')) s =
      dot_atten_one_step_probs p W.per_dim_scale (P + L) q
        (extend_decode_state (P + L) (concat_along P prefix_key st.key_state)
          kp time_step)
        atten_mask relative_bias n s := by
    intro s hsPL
    rw [dot_atten_one_step_probs, atten_probs_eq, atten_probs_eq, hpad s hsPL]
    congr 2
    refine Finset.sum_congr rfl fun j hj => ?_
    dsimp only
    rw [hpad j (Finset.mem_range.1 hj)]
  -- the attention context: split the base sum at P and reindex the tail
  rw [dot_atten_one_step_encoded, lpb_dot_atten_one_step_encoded]
  rw [sumR_split P (P + L) (Nat.le_add_right P L)]
  congr 1
  · refine Finset.sum_congr rfl fun s hs => ?_
    have hsP : s < P := Finset.mem_range.1 hs
    have hsPL : s < P + L := lt_of_lt_of_le hsP (Nat.le_add_right P L)
    dsimp only
    rw [hprobs s hsPL]
    have hval : (extend_decode_state (P + L)
        (concat_along P prefix_value st.value_state) vp time_step) s =
        prefix_value s := by
      rw [← hvcomm s, concat_along, if_pos hsP]
    rw [hval]
  · rw [Finset.sum_Ico_eq_sum_range]
    have hLL : P + L - P = L := by omega
    rw [hLL, sumR]
    refine Finset.sum_congr rfl fun s hs => ?_
    have hsL : s < L := Finset.mem_range.1 hs
    rw [hprobs (P + s) (by omega)]
    have hval : (extend_decode_state (P + L)
        (concat_along P prefix_value st.value_state) vp time_step)
        (P + s) =
        (lpb_extend_decode_state L [P] st.value_state vp time_step) s := by
      rw [← hvcomm (P + s), concat_along,
        if_neg (by omega : ¬(P + s < P))]
      congr 1
      omega
    rw [hval]

theorem lpb_extend_step_equiv_witness :
    lpb_extend_step_output_single ⟨1, 1, 1, 1, false, false, false, 0, none⟩
        ⟨fun _ _ _ => 0, fun _ _ => 0, fun _ _ _ => 0, fun _ _ => 0,
          fun _ _ _ => 0, fun _ _ => 0, fun _ _ _ => 0, fun _ => 0,
          fun _ => 0⟩
        1 1 (fun _ _ _ => 0) (fun _ _ _ => 0)
        ⟨fun _ _ _ => 0, fun _ _ _ => 0⟩ (fun _ => 0) 1 (fun _ => 0) none 0 =
      extend_step_output ⟨1, 1, 1, 1, false, false, false, 0, none⟩
        ⟨fun _ _ _ => 0, fun _ _ => 0, fun _ _ _ => 0, fun _ _ => 0,
          fun _ _ _ => 0, fun _ _ => 0, fun _ _ _ => 0, fun _ => 0,
          fun _ => 0⟩
        (1 + 1)
        ⟨concat_along 1 (fun _ _ _ => 0)
            (DecodeState.key_state ⟨fun _ _ _ => 0, fun _ _ _ => 0⟩),
          concat_along 1 (fun _ _ _ => 0)
            (DecodeState.value_state ⟨fun _ _ _ => 0, fun _ _ _ => 0⟩)⟩
        (fun _ => 0) 1 (fun _ => 0) none 0 :=
  lpb_extend_step_equiv ⟨1, 1, 1, 1, false, false, false, 0, none⟩
    ⟨fun _ _ _ => 0, fun _ _ => 0, fun _ _ _ => 0, fun _ _ => 0,
      fun _ _ _ => 0, fun _ _ => 0, fun _ _ _ => 0, fun _ => 0, fun _ => 0⟩
    1 1 (fun _ _ _ => 0) (fun _ _ _ => 0) ⟨fun _ _ _ => 0, fun _ _ _ => 0⟩
    (fun _ => 0) 1 (fun _ => 0) none (by norm_num) (by norm_num) 0

/-- C10 witness instance: with all positions padded, the mask row at a
padded query position is the large negative constant. -/
theorem limited_context_mask_from_padding_blocks_padded_queries_witness :
    limited_context_mask_from_padding 2 (fun _ _ => 1) none none 0 0 1 =
      get_large_negative_number :=
  (limited_context_mask_from_padding_blocks_padded_queries 2 (fun _ _ => 1)
    none none (fun _ _ => Or.inr rfl) 0 0).2 rfl 1

end

end Praxis
